import Mathlib

/-!
Shallow embedding of the subtitle-tool core (src/subtitle_tool/subtitles.py and
src/subtitle_tool/ai.py) and proofs about it.

Conventions of the embedding:
* Python `int` timestamps are `ℤ`; Python `float` durations/delays are `ℚ`.
* Python strings are `List Char`.
* Fallible Python code (raising) is `Except`-valued; the error type records which
  exception the source raises.
* In-place mutation of caller-owned lists (the merge loop mutates the events of the
  input groups) is made explicit: the loop also returns the post-call state of the
  input lists.
-/

set_option autoImplicit false

namespace SubtitleTool

/-- Python `int(x)` on a rational: truncation toward zero. -/
def pyTrunc (q : ℚ) : ℤ := q.num.tdiv q.den

/-- The `SubtitleEvent` pydantic model of subtitles.py (also standing for the
pysubs2 `SSAEvent`, which carries the same `start`/`end`/`text` fields used by the
code). The Python field `end` is called `stop` here (`end` is a Lean keyword). -/
structure SubtitleEvent where
  start : ℤ
  stop : ℤ
  text : List Char
  deriving DecidableEq, Repr

/-- The exceptions `validate_subtitles` can raise: the unguarded `subtitles[-1]`
raises `IndexError` on an empty list; the three validation rules raise the typed
validation failure (the message of each branch identifies the data shown here). -/
inductive ValidationError where
  | indexError
  | endExceedsDuration
  | startAfterEnd (index : ℕ)
  | overlap (index : ℕ)
  deriving DecidableEq, Repr

/-- The `for index, event in enumerate(subtitles)` loop of `validate_subtitles`:
`start > end` raises at any index; `start < prev_end` raises at index `> 0`;
at index `0` the overlap check is skipped and `prev_end` is seeded. -/
def validateLoop : List SubtitleEvent → ℕ → ℤ → Except ValidationError Unit
  | [], _, _ => .ok ()
  | e :: rest, index, prev_end =>
    if e.start > e.stop then .error (.startAfterEnd index)
    else if index = 0 then validateLoop rest (index + 1) e.stop
    else if e.start < prev_end then .error (.overlap index)
    else validateLoop rest (index + 1) e.stop

/-- `validate_subtitles(subtitles, duration)` from subtitles.py: first compares
`subtitles[-1].end` against `duration * 1000` (the `[-1]` access raises `IndexError`
on an empty list), then runs the enumerate loop. `duration` is in seconds. -/
def validate_subtitles (subtitles : List SubtitleEvent) (duration : ℚ) :
    Except ValidationError Unit :=
  match subtitles.getLast? with
  | none => .error .indexError
  | some last =>
    if (last.stop : ℚ) > duration * 1000 then .error .endExceedsDuration
    else validateLoop subtitles 0 0

/-- Shift one event: models `event.start += time_shift; event.end += time_shift`. -/
def shiftEvent (time_shift : ℤ) (e : SubtitleEvent) : SubtitleEvent :=
  { e with start := e.start + time_shift, stop := e.stop + time_shift }

/-- The main loop of `merge_subtitle_events`. For each group it reads
`segment_durations[index]` (`none` models the `IndexError` when the duration list is
too short), shifts every event of the group in place by the running `time_shift`,
appends the shifted events to `all_events`, and then advances `time_shift` by
`int(duration)`. The first component of the result is `all_events`; the second is
the post-call state of the input groups, which the loop has mutated in place. -/
def mergeLoop : List (List SubtitleEvent) → List ℚ → ℤ →
    Option (List SubtitleEvent × List (List SubtitleEvent))
  | [], _, _ => some ([], [])
  | _ :: _, [], _ => none
  | g :: gs, d :: ds, time_shift =>
    let shifted := g.map (shiftEvent time_shift)
    match mergeLoop gs ds (time_shift + pyTrunc d) with
    | some (out, post) => some (shifted ++ out, shifted :: post)
    | none => none

/-- The exceptions `merge_subtitle_events` can raise: `reduce` over an empty
duration list raises `TypeError`; a too-short duration list raises `IndexError`;
an invalid merged stream re-raises the validation failure. -/
inductive MergeError where
  | typeError
  | indexError
  | validation (e : ValidationError)
  deriving DecidableEq, Repr

/-- `merge_subtitle_events(subtitle_groups, segment_durations)` from subtitles.py:
computes `total_duration = reduce(+, segment_durations)` (raising on an empty list),
runs the shifting loop, validates the merged stream against `total_duration`, and
returns `all_events`. -/
def merge_subtitle_events (subtitle_groups : List (List SubtitleEvent))
    (segment_durations : List ℚ) : Except MergeError (List SubtitleEvent) :=
  if segment_durations.isEmpty then .error .typeError
  else
    match mergeLoop subtitle_groups segment_durations 0 with
    | none => .error .indexError
    | some (all_events, _) =>
      match validate_subtitles all_events segment_durations.sum with
      | .error e => .error (.validation e)
      | .ok _ => .ok all_events

/-- The state of the caller's `subtitle_groups` after `merge_subtitle_events` has
returned or raised a validation failure: in those cases the loop has completed, so
the groups hold the events it shifted in place. (If the loop itself raised, the
result paired with it is unused; the default arm keeps the function total.) -/
def mergePost (subtitle_groups : List (List SubtitleEvent))
    (segment_durations : List ℚ) : List (List SubtitleEvent) :=
  match mergeLoop subtitle_groups segment_durations 0 with
  | some (_, post) => post
  | none => subtitle_groups

/-- Cumulative offset applied to chunk `i`: the sum of `int(d)` over the declared
durations of the chunks before it. -/
def cumOffset (durations : List ℚ) (i : ℕ) : ℤ :=
  ((durations.take i).map pyTrunc).sum

/-! ## String utilities (Python string semantics on `List Char`)

`text.split()` (whitespace split with empty tokens dropped), `text.split("\\N")`,
`"\\N".join(...)`, `text.replace("\\N", " ")` and the tag-stripping regex
`re.sub(r"<[^>]+>", "", text)` used by `SubtitleBalancer`. The pysubs2 line-break
marker `"\\N"` is the two characters backslash-N. -/

/-- Python whitespace (`str.split()` with no argument splits on these). -/
def pySpace (c : Char) : Bool := c.isWhitespace

/-- Right fold underlying `str.split()`: returns the token currently being built
at the left end, and the completed tokens to its right. -/
def splitWsAux : List Char → List Char × List (List Char)
  | [] => ([], [])
  | c :: cs =>
    let r := splitWsAux cs
    if pySpace c then ([], if r.1.isEmpty then r.2 else r.1 :: r.2)
    else (c :: r.1, r.2)

/-- Python `s.split()`: maximal runs of non-whitespace characters, in order;
empty tokens never occur. -/
def pySplitWs (s : List Char) : List (List Char) :=
  let r := splitWsAux s
  if r.1.isEmpty then r.2 else r.1 :: r.2

/-- Python `s.split("\\N")` for the two-character pysubs2 line-break marker:
pieces between the leftmost non-overlapping occurrences of the marker. Always
returns at least one (possibly empty) piece, like `str.split` with an argument. -/
def pySplitNL : List Char → List (List Char)
  | [] => [[]]
  | [c] => [[c]]
  | c :: d :: rest =>
    if c = '\\' ∧ d = 'N' then [] :: pySplitNL rest
    else
      match pySplitNL (d :: rest) with
      | [] => [[c]]
      | p :: ps => (c :: p) :: ps

/-- Python `sep.join(pieces)`. -/
def joinSep (sep : List Char) : List (List Char) → List Char
  | [] => []
  | [x] => x
  | x :: xs => x ++ sep ++ joinSep sep xs

/-- Python `s.replace("\\N", " ")`: leftmost non-overlapping occurrences of the
marker each become one space. -/
def replaceNL : List Char → List Char
  | [] => []
  | [c] => [c]
  | c :: d :: rest =>
    if c = '\\' ∧ d = 'N' then ' ' :: replaceNL rest
    else c :: replaceNL (d :: rest)

/-- Decides whether `s` contains no occurrence of the `"\\N"` marker (the pieces
produced by `pySplitNL` all satisfy this). -/
def nlFree : List Char → Bool
  | [] => true
  | [_] => true
  | c :: d :: rest => !(c = '\\' ∧ d = 'N' : Bool) && nlFree (d :: rest)

/-- Helper for the tag regex: given the text after a `<`, find the first `>`;
the regex `<[^>]+>` matches only if at least one character stands between them.
Returns the text after that `>` on a match. -/
def splitAtGt (cs : List Char) : Option (List Char) :=
  if (cs.dropWhile (· ≠ '>')).head? = some '>' ∧ ¬(cs.takeWhile (· ≠ '>')).isEmpty
  then some (cs.dropWhile (· ≠ '>')).tail
  else none

/-- Fuel-indexed scan of `re.sub(r"<[^>]+>", "", text)`: at a `<` with a matching
`>` further on (and a non-empty body), drop through that `>` and continue;
otherwise keep the character. The fuel only serves termination; `stripTags` always
supplies enough. -/
def stripTagsF : ℕ → List Char → List Char
  | 0, s => s
  | _ + 1, [] => []
  | fuel + 1, c :: cs =>
    if c = '<' then
      match splitAtGt cs with
      | some rest => stripTagsF fuel rest
      | none => c :: stripTagsF fuel cs
    else c :: stripTagsF fuel cs

/-- The tag-stripping regex substitution `re.sub(r"<[^>]+>", "", text)`. -/
def stripTags (s : List Char) : List Char := stripTagsF s.length s

/-! ## SubtitleBalancer (subtitles.py, class `SubtitleBalancer`) -/

/-- Configuration of `SubtitleBalancer.__init__` (defaults 12 and 1000). The word
budget is a count, the minimum duration is in milliseconds. -/
structure SubtitleBalancer where
  max_words_per_screen : ℕ
  min_duration_ms : ℤ
  deriving DecidableEq, Repr

/-- `SubtitleBalancer.count_words`: strip the HTML-tag markup, split on
whitespace, count the (necessarily non-empty) tokens. The source's
`if word.strip()` filter drops nothing because `split()` tokens contain no
whitespace. -/
def count_words (text : List Char) : ℕ := (pySplitWs (stripTags text)).length

/-- Phase 1 of `split_text_smartly`: greedily pack consecutive lines into chunks,
closing the current chunk once adding a line would push the running word count
over `max_words` (only when the current chunk is non-empty); a non-empty final
chunk is flushed after the loop. Chunks are lines rejoined with `"\\N"`. -/
def phase1Loop (max_words : ℕ) :
    List (List Char) → List (List Char) → ℕ → List (List Char)
  | [], current_chunk, _ =>
    if current_chunk.isEmpty then [] else [joinSep ['\\', 'N'] current_chunk]
  | line :: rest, current_chunk, current_word_count =>
    let line_words := (pySplitWs line).length
    if max_words < current_word_count + line_words ∧ ¬current_chunk.isEmpty then
      joinSep ['\\', 'N'] current_chunk :: phase1Loop max_words rest [line] line_words
    else phase1Loop max_words rest (current_chunk ++ [line]) (current_word_count + line_words)

/-- The word-fallback loop of phase 2 of `split_text_smartly`: greedily fill each
piece with up to `max_words` individual words; pieces are words rejoined with a
single space, and a non-empty final piece is flushed. -/
def wordSplitLoop (max_words : ℕ) :
    List (List Char) → List (List Char) → List (List Char)
  | [], temp_chunk =>
    if temp_chunk.isEmpty then [] else [joinSep [' '] temp_chunk]
  | word :: rest, temp_chunk =>
    if max_words < temp_chunk.length + 1 ∧ ¬temp_chunk.isEmpty then
      joinSep [' '] temp_chunk :: wordSplitLoop max_words rest [word]
    else wordSplitLoop max_words rest (temp_chunk ++ [word])

/-- Phase 2 of `split_text_smartly`: a chunk within the word budget is kept;
an over-budget chunk is re-split word by word (line breaks replaced by spaces). -/
def phase2 (max_words : ℕ) (chunks : List (List Char)) : List (List Char) :=
  chunks.flatMap fun chunk =>
    if count_words chunk ≤ max_words then [chunk]
    else wordSplitLoop max_words (pySplitWs (replaceNL chunk)) []

/-- `SubtitleBalancer.split_text_smartly(text, max_words)`: line-aware phase then
word-fallback phase. -/
def split_text_smartly (text : List Char) (max_words : ℕ) : List (List Char) :=
  phase2 max_words (phase1Loop max_words (pySplitNL text) [] 0)

/-- The exception `balance_subtitles` can raise: `chunk_words / total_words`
divides by zero when every chunk of a split cue strips to zero countable words. -/
inductive BalanceError where
  | zeroDivisionError
  deriving DecidableEq, Repr

/-- The timing loop of `balance_subtitles` over `zip(text_chunks,
chunk_word_counts)`: a non-last chunk gets duration
`max(int(total_duration * chunk_words / total_words), min_duration_ms)` from the
running start; the last chunk ends at the original cue's end; every computed end
is then floored to `current_start + min_duration_ms` if the piece came out
shorter; the next piece starts at this piece's end. -/
def timingChunks (total_duration : ℤ) (line_end : ℤ) (min_duration_ms : ℤ)
    (total_words : ℕ) : List (List Char × ℕ) → ℤ → List SubtitleEvent
  | [], _ => []
  | [(chunk_text, _)], current_start =>
    let chunk_end := line_end
    let chunk_end :=
      if chunk_end - current_start < min_duration_ms then current_start + min_duration_ms
      else chunk_end
    [⟨current_start, chunk_end, chunk_text⟩]
  | (chunk_text, chunk_words) :: rest, current_start =>
    let duration_ratio : ℚ := (chunk_words : ℚ) / (total_words : ℚ)
    let chunk_duration := max (pyTrunc ((total_duration : ℚ) * duration_ratio)) min_duration_ms
    let chunk_end := current_start + chunk_duration
    let chunk_end :=
      if chunk_end - current_start < min_duration_ms then current_start + min_duration_ms
      else chunk_end
    ⟨current_start, chunk_end, chunk_text⟩ ::
      timingChunks total_duration line_end min_duration_ms total_words rest chunk_end

/-- The per-cue body of the `for line in subs` loop of `balance_subtitles`:
a cue within the word budget is kept as is; so is one whose two-phase split
yields a single chunk; otherwise the cue is replaced by the timed chunks.
When at least one non-last chunk exists (two or more chunks) and the chunk word
counts sum to zero, the first `chunk_words / total_words` raises
`ZeroDivisionError`. -/
def balanceOne (B : SubtitleBalancer) (line : SubtitleEvent) :
    Except BalanceError (List SubtitleEvent) :=
  let word_count := count_words line.text
  if word_count ≤ B.max_words_per_screen then .ok [line]
  else
    let text_chunks := split_text_smartly line.text B.max_words_per_screen
    if text_chunks.length = 1 then .ok [line]
    else
      let chunk_word_counts := text_chunks.map count_words
      let total_words := chunk_word_counts.sum
      if 2 ≤ text_chunks.length ∧ total_words = 0 then .error .zeroDivisionError
      else
        .ok (timingChunks (line.stop - line.start) line.stop B.min_duration_ms
          total_words (text_chunks.zip chunk_word_counts) line.start)

/-- `SubtitleBalancer.balance_subtitles(subs)`: process the cues in order,
appending each cue's pieces to the output; an exception while processing any cue
aborts the whole call. -/
def balance_subtitles (B : SubtitleBalancer) : List SubtitleEvent →
    Except BalanceError (List SubtitleEvent)
  | [] => .ok []
  | line :: rest =>
    match balanceOne B line with
    | .error e => .error e
    | .ok pieces =>
      match balance_subtitles B rest with
      | .error e => .error e
      | .ok out => .ok (pieces ++ out)

/-- Tokens of a text with the pysubs2 line-break marker read as a space: the
token sequence used to compare a cue's text with its pieces' texts. -/
def tokensNL (text : List Char) : List (List Char) := pySplitWs (replaceNL text)

/-! ## ai.py: error classification, delay extraction, retry loops -/

/-- A quota violation inside a `google.rpc.QuotaFailure` detail; only its
`quotaId` is inspected. -/
structure QuotaViolation where
  quotaId : String
  deriving DecidableEq, Repr

/-- One entry of `exception.details["error"]["details"]`. `violations` models
`detail.get("violations")` (empty when absent) and `retryDelay` models the
optional `retryDelay` field of a `google.rpc.RetryInfo` detail. -/
structure ErrorDetail where
  atType : String
  violations : List QuotaViolation := []
  retryDelay : Option String := none
  deriving DecidableEq, Repr

/-- The exceptions reaching the retry machinery of ai.py: `ClientError` and
`ServerError` from google.genai.errors (disjoint subclasses of `APIError`,
each carrying an HTTP code and structured details), and any other exception
type (`otherException`, which has no `details` attribute). -/
inductive ApiException where
  | clientError (code : ℤ) (details : List ErrorDetail)
  | serverError (code : ℤ) (details : List ErrorDetail)
  | otherException
  deriving DecidableEq, Repr

/-- Python `needle in haystack` on strings: list containment of a contiguous run. -/
def listIsPrefixOf : List Char → List Char → Bool
  | [], _ => true
  | _ :: _, [] => false
  | a :: as, b :: bs => if a = b then listIsPrefixOf as bs else false

/-- Substring test used for `"PerDay" in violation["quotaId"]`. -/
def listContainsSub (needle : List Char) : List Char → Bool
  | [] => listIsPrefixOf needle []
  | b :: bs => listIsPrefixOf needle (b :: bs) || listContainsSub needle bs

/-- Python `needle in hay` for strings. -/
def strContains (hay needle : String) : Bool := listContainsSub needle.toList hay.toList

/-- `is_recoverable_exception` from ai.py: a `ClientError` with code 429 whose
details carry a `QuotaFailure` violation with a daily-scoped `quotaId`
(containing `"PerDay"`) is not recoverable; every other exception is. -/
def is_recoverable_exception (exception : ApiException) : Bool :=
  match exception with
  | .clientError code details =>
    if code = 429 then
      if details.any fun detail =>
          detail.atType = "type.googleapis.com/google.rpc.QuotaFailure" &&
          detail.violations.any fun violation => strContains violation.quotaId "PerDay"
      then false else true
    else true
  | _ => true

/-- Decides whether a 429 error's details carry a daily-scoped quota violation:
the exact condition scanned by `is_recoverable_exception`. -/
def hasDailyQuotaViolation (details : List ErrorDetail) : Bool :=
  details.any fun detail =>
    detail.atType = "type.googleapis.com/google.rpc.QuotaFailure" &&
    detail.violations.any fun violation => strContains violation.quotaId "PerDay"

/-- `isinstance(exception, ClientError)`. -/
def isClientError : ApiException → Bool
  | .clientError _ _ => true
  | _ => false

/-- `isinstance(exception, ServerError)`. -/
def isServerError : ApiException → Bool
  | .serverError _ _ => true
  | _ => false

/-- `retry_handler` from ai.py: retry on any `ServerError`, and on any
`ClientError` deemed recoverable by `is_recoverable_exception`. -/
def retry_handler (exception : ApiException) : Bool :=
  isServerError exception || (isClientError exception && is_recoverable_exception exception)

/-- `DEFAULT_WAIT_TIME` from ai.py (seconds). -/
def DEFAULT_WAIT_TIME : ℚ := 15

/-- Value of a digit string. -/
def digitsVal (ds : List Char) : ℕ :=
  ds.foldl (fun acc c => 10 * acc + (c.toNat - 48)) 0

/-- Python `float(s)` restricted to plain signed decimal literals (an optional
sign, then digits with an optional point; at least one digit): `none` models
the `ValueError` that `float` raises on anything unparsable this way. This is
the fragment of `float`'s grammar the retry-delay strings exercise. -/
def pyFloat (s : List Char) : Option ℚ :=
  let signed : ℚ × List Char :=
    match s with
    | '-' :: r => (-1, r)
    | '+' :: r => (1, r)
    | r => (1, r)
  let ip := signed.2.takeWhile Char.isDigit
  let rest := signed.2.dropWhile Char.isDigit
  match rest with
  | [] => if ip.isEmpty then none else some (signed.1 * digitsVal ip)
  | '.' :: fp =>
    if fp.all Char.isDigit && !(ip.isEmpty && fp.isEmpty) then
      some (signed.1 * ((digitsVal ip : ℚ) + (digitsVal fp : ℚ) / (10 : ℚ) ^ fp.length))
    else none
  | _ => none

/-- The `for detail in exception.details["error"]["details"]` loop of
`extract_retry_delay`: the first `RetryInfo` detail whose `retryDelay` value ends
in `"s"` decides the result — its numeric prefix on success, the default when
`float` raises (the `except` around the loop returns the fallback); details that
do not match are skipped, and a fully unmatched list yields the default. -/
def extractDelayLoop : List ErrorDetail → ℚ
  | [] => DEFAULT_WAIT_TIME
  | detail :: rest =>
    if detail.atType = "type.googleapis.com/google.rpc.RetryInfo" then
      let retry_delay := (detail.retryDelay.getD "").toList
      if retry_delay.getLast? = some 's' then
        match pyFloat retry_delay.dropLast with
        | some v => v
        | none => DEFAULT_WAIT_TIME
      else extractDelayLoop rest
    else extractDelayLoop rest

/-- `extract_retry_delay` from ai.py. On an exception with no `details`
attribute, the attribute access raises inside the `try` and the default is
returned. -/
def extract_retry_delay (exception : ApiException) : ℚ :=
  match exception with
  | .clientError _ details => extractDelayLoop details
  | .serverError _ details => extractDelayLoop details
  | .otherException => DEFAULT_WAIT_TIME

/-- `wait_api_limit` from ai.py, applied to the exception of a failed attempt
(`none` models a retry state with no failed outcome): a 429 `ClientError`
consults `extract_retry_delay`; everything else waits the default. -/
def wait_api_limit (outcome : Option ApiException) : ℚ :=
  match outcome with
  | some exception =>
    match exception with
    | .clientError code _ =>
      if code = 429 then extract_retry_delay exception else DEFAULT_WAIT_TIME
    | _ => DEFAULT_WAIT_TIME
  | none => DEFAULT_WAIT_TIME

/-! ## The tenacity retry loops wrapping the AISubtitler calls -/

/-- Exceptions crossing `_audio_to_subtitles`: a failure of
`validate_subtitles` or an exception bubbling out of `_generate_subtitles`.

Modelled from the spec: `SubtitleValidationException` is imported by ai.py (and
the tests) from subtitle_tool.subtitles but src/src/subtitle_tool/subtitles.py
does not define it; per the spec the Validator "raises a typed validation
failure", modelled here as the `validation` constructor. The `indexError`
variant of `ValidationError` is Python's `IndexError`, a different class. -/
inductive PipelineError where
  | validation (e : ValidationError)
  | api (e : ApiException)
  deriving DecidableEq, Repr

/-- `retry_if_exception_type(SubtitleValidationException)`: true exactly on the
typed validation failure (an `IndexError` from the unguarded `subtitles[-1]` is
not of that type). -/
def isSubtitleValidationException : PipelineError → Bool
  | .validation .indexError => false
  | .validation _ => true
  | .api _ => false

/-- How a failure leaves a tenacity-wrapped call: either the original exception
propagates unchanged, or tenacity's `RetryError` wrapping the last attempt's
exception is raised (the default when `reraise=True` is not set). -/
inductive RaisedOutcome (ε : Type) where
  | original (e : ε)
  | retryError (e : ε)
  deriving DecidableEq, Repr

/-- The tenacity retry loop: run attempt `n` (with `fuel` attempts remaining,
counting this one). On success return. On a failure the retry predicate rejects,
the original exception propagates at once. Otherwise, if attempts remain, retry;
if the attempt budget is exhausted, raise the original exception when
`reraise` is set and a `RetryError` wrapping it when not. -/
def tenacityGo {ε α : Type} (should_retry : ε → Bool) (reraise : Bool)
    (attempt : ℕ → Except ε α) : ℕ → ℕ → Except (RaisedOutcome ε) α
  | fuel, n =>
    match attempt n with
    | .ok a => .ok a
    | .error e =>
      if should_retry e then
        match fuel with
        | f + 2 => tenacityGo should_retry reraise attempt (f + 1) (n + 1)
        | _ => if reraise then .error (.original e) else .error (.retryError e)
      else .error (.original e)

/-- A call wrapped by tenacity's `@retry(retry=..., stop=stop_after_attempt(S),
reraise=...)`: attempts are numbered from 1 and at most `S` run. -/
def executeWithRetry {ε α : Type} (should_retry : ε → Bool) (reraise : Bool)
    (stop_after : ℕ) (attempt : ℕ → Except ε α) : Except (RaisedOutcome ε) α :=
  tenacityGo should_retry reraise attempt stop_after 1

/-- The decorator of `_audio_to_subtitles`:
`retry=retry_if_exception_type(SubtitleValidationException)`,
`stop=stop_after_attempt(50)`, and no `reraise` (so it defaults to False). -/
def audio_to_subtitles_retry (attempt : ℕ → Except PipelineError (List SubtitleEvent)) :
    Except (RaisedOutcome PipelineError) (List SubtitleEvent) :=
  executeWithRetry isSubtitleValidationException false 50 attempt

/-- The decorator of `_generate_subtitles`:
`retry=retry_if_exception(retry_handler)`, `stop=stop_after_attempt(30)`,
`reraise=True`. -/
def generate_subtitles_retry (attempt : ℕ → Except ApiException (List SubtitleEvent)) :
    Except (RaisedOutcome ApiException) (List SubtitleEvent) :=
  executeWithRetry retry_handler true 30 attempt

instance {ε α : Type} [DecidableEq ε] [DecidableEq α] : DecidableEq (Except ε α)
  | .ok a, .ok b =>
    if h : a = b then .isTrue (by rw [h]) else .isFalse (by simpa using h)
  | .ok _, .error _ => .isFalse (by simp)
  | .error _, .ok _ => .isFalse (by simp)
  | .error e, .error f =>
    if h : e = f then .isTrue (by rw [h]) else .isFalse (by simpa using h)

lemma cumOffset_zero (durations : List ℚ) : cumOffset durations 0 = 0 := rfl

lemma cumOffset_succ_cons (d : ℚ) (ds : List ℚ) (i : ℕ) :
    cumOffset (d :: ds) (i + 1) = pyTrunc d + cumOffset ds i := by
  simp [cumOffset, List.take_succ_cons]

/-- Closed form of the merge loop when the duration list is long enough: it
succeeds, the output is the concatenation of the per-chunk shifted groups, and the
post-call state of the input groups is exactly those shifted groups. -/
lemma mergeLoop_eq (gs : List (List SubtitleEvent)) :
    ∀ (ds : List ℚ) (shift : ℤ), gs.length ≤ ds.length →
    mergeLoop gs ds shift =
      some ((gs.mapIdx fun i g => g.map (shiftEvent (shift + cumOffset ds i))).flatten,
            gs.mapIdx fun i g => g.map (shiftEvent (shift + cumOffset ds i))) := by
  induction gs with
  | nil => intro ds shift _; simp [mergeLoop]
  | cons g gs ih =>
    intro ds shift hlen
    cases ds with
    | nil => simp at hlen
    | cons d ds =>
      simp only [List.length_cons, Nat.add_le_add_iff_right] at hlen
      simp only [mergeLoop, ih ds (shift + pyTrunc d) hlen]
      simp only [List.mapIdx_cons, cumOffset_zero, add_zero, cumOffset_succ_cons,
        List.flatten_cons, add_assoc]

/-- The merge loop fails (with the modelled `IndexError`) exactly when the duration
list is shorter than the group list. -/
lemma mergeLoop_eq_none_iff (gs : List (List SubtitleEvent)) :
    ∀ (ds : List ℚ) (shift : ℤ), mergeLoop gs ds shift = none ↔ ds.length < gs.length := by
  induction gs with
  | nil => intro ds shift; simp [mergeLoop]
  | cons g gs ih =>
    intro ds shift
    cases ds with
    | nil => simp [mergeLoop]
    | cons d ds =>
      simp only [mergeLoop, List.length_cons, Nat.add_lt_add_iff_right]
      rw [← ih ds (shift + pyTrunc d)]
      cases h : mergeLoop gs ds (shift + pyTrunc d) with
      | none => simp
      | some p => simp

/-! ## Theorems -/

/-- C1 counterexample: the claim offsets chunk `i` by the floor of the SUM of the
preceding declared durations; the code accumulates `int(duration)` per chunk, the
sum of the truncations. With durations `[1.5, 1.5, 1]` the claim puts chunk 2's
cue at `0 + floor(3.0) = 3`, but the merge output places it at
`int(1.5) + int(1.5) = 2`. -/
theorem merge_offset_floor_of_sum_cex :
    ¬ (∀ (groups : List (List SubtitleEvent)) (durs : List ℚ)
        (out : List SubtitleEvent),
        groups ≠ [] → groups.length = durs.length →
        merge_subtitle_events groups durs = .ok out →
        out = (groups.mapIdx fun i g =>
          g.map (shiftEvent ⌊(durs.take i).sum⌋)).flatten) := by
  intro h
  have h32 : Int.tdiv 3 2 = 1 := by decide
  have hm : merge_subtitle_events [[], [], [⟨0, 500, ['a']⟩]] [3/2, 3/2, 1] =
      .ok [⟨2, 502, ['a']⟩] := by
    norm_num [merge_subtitle_events, mergeLoop, validate_subtitles, validateLoop,
      pyTrunc, shiftEvent, h32]
  have hc := h _ _ _ (by simp) (by simp) hm
  norm_num [List.mapIdx_cons, shiftEvent, SubtitleEvent.mk.injEq] at hc

/-- C1 (amended): for every non-empty list of chunk-local timelines with an
equal-length duration list, when `merge_subtitle_events` returns, cue `j` of
chunk `i` is the local cue shifted (start and end alike) by the SUM OF THE
TRUNCATIONS `int(durations[k])` over `k < i` — stated as: the output is the
concatenation over chunks of the chunk's cues shifted by `cumOffset`. (The
claim's floor-of-sum offset only coincides with this when the truncations lose
nothing, e.g. for integral durations such as the 5000 ms example.) -/
theorem merge_offset_invariant (groups : List (List SubtitleEvent)) (durs : List ℚ)
    (out : List SubtitleEvent) (hne : groups ≠ [])
    (hlen : groups.length = durs.length)
    (hok : merge_subtitle_events groups durs = .ok out) :
    out = (groups.mapIdx fun i g => g.map (shiftEvent (cumOffset durs i))).flatten := by
  have hd : durs.isEmpty = false := by
    rcases groups with _ | ⟨g, gs⟩
    · exact absurd rfl hne
    · rcases durs with _ | ⟨d, ds⟩
      · simp at hlen
      · rfl
  rw [merge_subtitle_events] at hok
  rw [mergeLoop_eq groups durs 0 hlen.le] at hok
  simp only [hd, Bool.false_eq_true, if_false] at hok
  rcases hv : validate_subtitles
      ((groups.mapIdx fun i g => g.map (shiftEvent (0 + cumOffset durs i))).flatten)
      durs.sum with e | u
  · rw [hv] at hok; exact absurd hok (by simp)
  · rw [hv] at hok
    simp only [Except.ok.injEq] at hok
    simp only [← hok, zero_add]

/-- C1 witness: the spec's example — two chunks of declared duration 5000 (ms),
chunk 0 cues (0,1000,"a"), (2000,3000,"b"), chunk 1 cue (0,1000,"c") — merges to
(0,1000,"a"), (2000,3000,"b"), (5000,6000,"c"), which is exactly the per-chunk
truncated-offset form. -/
theorem merge_offset_invariant_witness :
    merge_subtitle_events
      [[⟨0, 1000, ['a']⟩, ⟨2000, 3000, ['b']⟩], [⟨0, 1000, ['c']⟩]] [5000, 5000] =
      .ok [⟨0, 1000, ['a']⟩, ⟨2000, 3000, ['b']⟩, ⟨5000, 6000, ['c']⟩] ∧
    ([⟨0, 1000, ['a']⟩, ⟨2000, 3000, ['b']⟩, ⟨5000, 6000, ['c']⟩] :
        List SubtitleEvent) =
      (([[⟨0, 1000, ['a']⟩, ⟨2000, 3000, ['b']⟩], [⟨0, 1000, ['c']⟩]] :
          List (List SubtitleEvent)).mapIdx fun i g =>
        g.map (shiftEvent (cumOffset [5000, 5000] i))).flatten := by
  have hm : merge_subtitle_events
      [[⟨0, 1000, ['a']⟩, ⟨2000, 3000, ['b']⟩], [⟨0, 1000, ['c']⟩]] [5000, 5000] =
      .ok [⟨0, 1000, ['a']⟩, ⟨2000, 3000, ['b']⟩, ⟨5000, 6000, ['c']⟩] := by
    norm_num [merge_subtitle_events, mergeLoop, validate_subtitles, validateLoop,
      pyTrunc, shiftEvent]
  exact ⟨hm, merge_offset_invariant _ _ _ (by simp) (by simp) hm⟩

/-- C7 counterexample: the claim says the cues appended by the merge are copies,
the inputs staying unchanged. The loop executes `event.start += time_shift` on
the caller's own event objects: after a successful merge of the 5000 ms example,
the second input group holds (5000,6000,"c"), not its original (0,1000,"c"). -/
theorem merge_input_copy_cex :
    merge_subtitle_events [[⟨0, 1000, ['a']⟩], [⟨0, 1000, ['c']⟩]] [5000, 5000] =
      .ok [⟨0, 1000, ['a']⟩, ⟨5000, 6000, ['c']⟩] ∧
    mergePost [[⟨0, 1000, ['a']⟩], [⟨0, 1000, ['c']⟩]] [5000, 5000] ≠
      [[⟨0, 1000, ['a']⟩], [⟨0, 1000, ['c']⟩]] := by
  constructor
  · norm_num [merge_subtitle_events, mergeLoop, validate_subtitles, validateLoop,
      pyTrunc, shiftEvent]
  · norm_num [mergePost, mergeLoop, pyTrunc, shiftEvent]

/-- C7 (amended): `merge_subtitle_events` mutates its inputs in place. After the
function returns (or raises a validation failure), every cue of input chunk `i`
has been shifted by that chunk's cumulative truncated offset: the post-call state
of the input groups equals the shifted groups (and so aliases the output, which
is their concatenation), rather than the original values. -/
theorem merge_mutates_inputs (groups : List (List SubtitleEvent)) (durs : List ℚ)
    (h : (∃ out, merge_subtitle_events groups durs = .ok out) ∨
         (∃ e, merge_subtitle_events groups durs = .error (.validation e))) :
    mergePost groups durs =
      groups.mapIdx fun i g => g.map (shiftEvent (cumOffset durs i)) := by
  have hlen : groups.length ≤ durs.length := by
    by_contra hlt
    push_neg at hlt
    have hnone : mergeLoop groups durs 0 = none :=
      (mergeLoop_eq_none_iff groups durs 0).mpr hlt
    rcases h with ⟨out, hok⟩ | ⟨e, he⟩
    · rcases hE : durs.isEmpty with _ | _ <;>
        simp [merge_subtitle_events, hE, hnone] at hok
    · rcases hE : durs.isEmpty with _ | _ <;>
        simp [merge_subtitle_events, hE, hnone] at he
  rw [mergePost, mergeLoop_eq groups durs 0 hlen]
  simp only [zero_add]

/-- C7 witness: applying the amended statement to the two-chunk example shows
the caller's groups end up holding the shifted cues. -/
theorem merge_mutates_inputs_witness :
    mergePost [[⟨0, 1000, ['a']⟩], [⟨0, 1000, ['c']⟩]] [5000, 5000] =
      [[⟨0, 1000, ['a']⟩], [⟨5000, 6000, ['c']⟩]] := by
  have hm : merge_subtitle_events [[⟨0, 1000, ['a']⟩], [⟨0, 1000, ['c']⟩]]
      [5000, 5000] = .ok [⟨0, 1000, ['a']⟩, ⟨5000, 6000, ['c']⟩] := by
    norm_num [merge_subtitle_events, mergeLoop, validate_subtitles, validateLoop,
      pyTrunc, shiftEvent]
  rw [merge_mutates_inputs _ _ (Or.inl ⟨_, hm⟩)]
  norm_num [List.mapIdx_cons, cumOffset, pyTrunc, shiftEvent]

/-- C3: the claim says `validate_subtitles` on an empty cue list returns normally
for every total duration, the bounds rule applying only to non-empty input (and
`test_no_subtitle` in tests/test_subtitles.py asserts exactly that). The code
instead reads `subtitles[-1]` unguarded, which raises `IndexError` on an empty
list before any rule is checked: this theorem evaluates the code on the empty
list at every duration. -/
theorem validate_empty_raises (duration : ℚ) :
    validate_subtitles [] duration = .error .indexError := rfl

/-- C4 counterexample: the claim says every failure from the boundary other than
a daily-scoped 429 quota error is treated as recoverable (retried). An exception
that is neither a `ClientError` nor a `ServerError` — for example a transport
timeout of another class — is deemed recoverable by `is_recoverable_exception`,
yet `retry_handler` refuses to retry it, so it is not treated as recoverable by
the retry loop. -/
theorem retry_classification_other_cex :
    is_recoverable_exception .otherException = true ∧
    retry_handler .otherException = false := by decide

/-- C4 (amended): a 429 `ClientError` whose details carry a daily-scoped
(`"PerDay"`) quota violation is non-recoverable — `retry_handler` refuses it and
`is_recoverable_exception` classifies it false; a 429 without such a violation
(e.g. minute-scoped) is retried; any `ServerError` (5xx) is retried; any other
`ClientError` is retried; but a failure that is neither a `ClientError` nor a
`ServerError` is not retried by the transport loop, even though
`is_recoverable_exception` alone deems it recoverable. -/
theorem retry_classification :
    (∀ details : List ErrorDetail, hasDailyQuotaViolation details = true →
      retry_handler (.clientError 429 details) = false ∧
      is_recoverable_exception (.clientError 429 details) = false) ∧
    (∀ details : List ErrorDetail, hasDailyQuotaViolation details = false →
      retry_handler (.clientError 429 details) = true) ∧
    (∀ (code : ℤ) (details : List ErrorDetail),
      retry_handler (.serverError code details) = true) ∧
    (∀ (code : ℤ) (details : List ErrorDetail), code ≠ 429 →
      retry_handler (.clientError code details) = true) ∧
    (is_recoverable_exception .otherException = true ∧
      retry_handler .otherException = false) := by
  refine ⟨fun details h => ?_, fun details h => ?_, fun code details => rfl,
    fun code details hc => ?_, by decide⟩
  · constructor <;>
      simp [retry_handler, is_recoverable_exception, isClientError, isServerError,
        hasDailyQuotaViolation] at h ⊢ <;> exact h
  · simp [retry_handler, is_recoverable_exception, isClientError, isServerError,
      hasDailyQuotaViolation] at h ⊢
    exact h
  · simp [retry_handler, is_recoverable_exception, isClientError, isServerError, hc]

/-- C4 witness: the three classifications at the quota payloads of
tests/test_ai.py — a daily-scoped 429 is not retried, a minute-scoped 429 is,
and a 500 `ServerError` is. -/
theorem retry_classification_witness :
    retry_handler (.clientError 429
      [⟨"type.googleapis.com/google.rpc.QuotaFailure",
        [⟨"GenerateRequestsPerDayPerProjectPerModel-FreeTier"⟩], none⟩]) = false ∧
    retry_handler (.clientError 429
      [⟨"type.googleapis.com/google.rpc.QuotaFailure",
        [⟨"GenerateRequestsPerMinutePerProjectPerModel-FreeTier"⟩], none⟩]) = true ∧
    retry_handler (.serverError 500 []) = true :=
  ⟨(retry_classification.1 _ (by decide)).1, retry_classification.2.1 _ (by decide),
    retry_classification.2.2.1 500 []⟩

/-- Helper for C9: a detail list in which no entry carries a `retryDelay` field
makes the extraction loop fall through to the default. -/
lemma extractDelayLoop_no_field (details : List ErrorDetail)
    (h : ∀ d ∈ details, d.retryDelay = none) :
    extractDelayLoop details = DEFAULT_WAIT_TIME := by
  induction details with
  | nil => rfl
  | cons d ds ih =>
    have hd : d.retryDelay = none := h d (by simp)
    have hds := ih fun x hx => h x (by simp [hx])
    simp [extractDelayLoop, hd, hds]

/-- C9: an error whose structured details carry `retryDelay: "33s"` in a
`RetryInfo` entry yields a delay of exactly 33.0 seconds; an error none of whose
details carry a `retryDelay` field yields the documented default, as does one
whose `retryDelay` value ends in `"s"` but whose prefix `float` cannot parse;
and the default is 15 seconds. -/
theorem delay_extraction :
    extract_retry_delay (.clientError 429
      [⟨"type.googleapis.com/google.rpc.QuotaFailure",
        [⟨"GenerateRequestsPerMinutePerProjectPerModel-FreeTier"⟩], none⟩,
       ⟨"type.googleapis.com/google.rpc.RetryInfo", [], some "33s"⟩]) = 33 ∧
    (∀ (code : ℤ) (details : List ErrorDetail),
      (∀ d ∈ details, d.retryDelay = none) →
      extract_retry_delay (.clientError code details) = DEFAULT_WAIT_TIME) ∧
    extract_retry_delay (.clientError 429
      [⟨"type.googleapis.com/google.rpc.RetryInfo", [], some "oopss"⟩]) =
      DEFAULT_WAIT_TIME ∧
    DEFAULT_WAIT_TIME = 15 := by
  refine ⟨?_, fun code details h => extractDelayLoop_no_field details h, ?_, rfl⟩
  · have h1 : "33s".toList = ['3', '3', 's'] := rfl
    have h2 : (['3', '3'].takeWhile Char.isDigit) = ['3', '3'] := by decide
    have h3 : (['3', '3'].dropWhile Char.isDigit) = ([] : List Char) := by decide
    have h4 : digitsVal ['3', '3'] = 33 := by decide
    simp [extract_retry_delay, extractDelayLoop, pyFloat, h1, h2, h3, h4]
  · have h1 : "oopss".toList = ['o', 'o', 'p', 's', 's'] := rfl
    have h2 : (['o', 'o', 'p', 's'].takeWhile Char.isDigit) = ([] : List Char) := by
      decide
    have h3 : (['o', 'o', 'p', 's'].dropWhile Char.isDigit) = ['o', 'o', 'p', 's'] := by
      decide
    simp [extract_retry_delay, extractDelayLoop, pyFloat, h1, h2, h3]

/-- C9 witness: the general no-field clause of `delay_extraction` applied to the
auth-error payload of tests/test_ai.py (code 403, empty detail list). -/
theorem delay_extraction_witness :
    extract_retry_delay (.clientError 403 []) = DEFAULT_WAIT_TIME :=
  delay_extraction.2.1 403 [] (by simp)

/-- Python `int` truncation commutes with rational negation. -/
lemma pyTrunc_neg (q : ℚ) : pyTrunc (-q) = -pyTrunc q := by
  rw [pyTrunc, pyTrunc, Rat.neg_num, Rat.neg_den, Int.neg_tdiv]

/-- On an integer-over-natural fraction, Python `int` truncation is `Int.tdiv`. -/
lemma pyTrunc_div_cast (a : ℤ) (d : ℕ) (hd : d ≠ 0) :
    pyTrunc ((a : ℚ) / (d : ℚ)) = a.tdiv d := by
  have hd0 : (0 : ℚ) < (d : ℚ) := by exact_mod_cast Nat.pos_of_ne_zero hd
  rcases le_or_lt 0 a with ha | ha
  · have hq : 0 ≤ (a : ℚ) / (d : ℚ) := div_nonneg (by exact_mod_cast ha) hd0.le
    rw [pyTrunc, Int.tdiv_eq_ediv (Rat.num_nonneg.2 hq) (Int.natCast_nonneg _),
      ← Rat.floor_def, Rat.floor_intCast_div_natCast]
    exact (Int.tdiv_eq_ediv ha (Int.natCast_nonneg _)).symm
  · have key : ((a : ℚ) / (d : ℚ)) = -(((-a : ℤ) : ℚ) / (d : ℚ)) := by
      push_cast; ring
    have hna : (0 : ℤ) ≤ -a := by omega
    have hq : 0 ≤ ((-a : ℤ) : ℚ) / (d : ℚ) := div_nonneg (by exact_mod_cast hna) hd0.le
    rw [key, pyTrunc_neg, pyTrunc,
      Int.tdiv_eq_ediv (Rat.num_nonneg.2 hq) (Int.natCast_nonneg _),
      ← Rat.floor_def, Rat.floor_intCast_div_natCast,
      ← Int.tdiv_eq_ediv hna (Int.natCast_nonneg _), Int.neg_tdiv, neg_neg]

/-- The duration expression of the balancer's timing loop, as `Int.tdiv`. -/
lemma pyTrunc_mul_ratio (D : ℤ) (w W : ℕ) (hW : W ≠ 0) :
    pyTrunc ((D : ℚ) * ((w : ℚ) / (W : ℚ))) = (D * w).tdiv W := by
  have h : (D : ℚ) * ((w : ℚ) / (W : ℚ)) = (((D * (w : ℤ)) : ℤ) : ℚ) / (W : ℚ) := by
    push_cast; ring
  rw [h, pyTrunc_div_cast _ _ hW]

/-- The timing loop yields one piece per chunk. -/
lemma timingChunks_length (D E m : ℤ) (W : ℕ) (pairs : List (List Char × ℕ)) :
    ∀ s : ℤ, (timingChunks D E m W pairs s).length = pairs.length := by
  induction pairs with
  | nil => intro s; rfl
  | cons p rest ih =>
    intro s
    rcases p with ⟨t, w⟩
    cases rest with
    | nil => rfl
    | cons q rest2 => simp [timingChunks, ih]

/-- The timing loop's pieces carry the chunk texts, in order. -/
lemma timingChunks_texts (D E m : ℤ) (W : ℕ) (pairs : List (List Char × ℕ)) :
    ∀ s : ℤ, (timingChunks D E m W pairs s).map SubtitleEvent.text = pairs.map Prod.fst := by
  induction pairs with
  | nil => intro s; rfl
  | cons p rest ih =>
    intro s
    rcases p with ⟨t, w⟩
    cases rest with
    | nil => rfl
    | cons q rest2 => simp [timingChunks, ih]

/-- The first piece of the timing loop starts at the running start. -/
lemma timingChunks_head_start (D E m : ℤ) (W : ℕ) (pairs : List (List Char × ℕ))
    (s : ℤ) (h : pairs ≠ []) :
    ((timingChunks D E m W pairs s).getD 0 ⟨0, 0, []⟩).start = s := by
  cases pairs with
  | nil => exact absurd rfl h
  | cons p rest =>
    rcases p with ⟨t, w⟩
    cases rest with
    | nil => rfl
    | cons q rest2 => rfl

/-- The last piece of the timing loop ends at the cue's original end, unless that
leaves it shorter than the minimum duration, in which case it ends a minimum
duration after its own start. -/
lemma timingChunks_last (D E m : ℤ) (W : ℕ) (pairs : List (List Char × ℕ)) :
    ∀ s : ℤ, pairs ≠ [] →
    ∃ last : SubtitleEvent,
      (timingChunks D E m W pairs s).getLast? = some last ∧
      last.stop = if E - last.start < m then last.start + m else E := by
  induction pairs with
  | nil => intro s h; exact absurd rfl h
  | cons p rest ih =>
    intro s _
    rcases p with ⟨t, w⟩
    cases rest with
    | nil =>
      refine ⟨⟨s, if E - s < m then s + m else E, t⟩, ?_, ?_⟩ <;> simp [timingChunks]
    | cons q rest2 =>
      obtain ⟨last, hl, hs⟩ := ih
        (s + max (pyTrunc ((D : ℚ) * ((w : ℚ) / (W : ℚ)))) m) (by simp)
      refine ⟨last, ?_, hs⟩
      have hcl : (if s + max (pyTrunc ((D : ℚ) * ((w : ℚ) / (W : ℚ)))) m - s < m then
          s + m else s + max (pyTrunc ((D : ℚ) * ((w : ℚ) / (W : ℚ)))) m) =
          s + max (pyTrunc ((D : ℚ) * ((w : ℚ) / (W : ℚ)))) m := by
        have := le_max_right (pyTrunc ((D : ℚ) * ((w : ℚ) / (W : ℚ)))) m
        rw [if_neg (by omega)]
      simp only [timingChunks, hcl]
      rcases htc : timingChunks D E m W (q :: rest2)
          (s + max (pyTrunc ((D : ℚ) * ((w : ℚ) / (W : ℚ)))) m) with _ | ⟨y, ys⟩
      · have := timingChunks_length D E m W (q :: rest2)
          (s + max (pyTrunc ((D : ℚ) * ((w : ℚ) / (W : ℚ)))) m)
        rw [htc] at this
        simp at this
      · rw [htc] at hl
        rw [List.getLast?_cons_cons]
        exact hl

/-- Every non-last piece of the timing loop spans exactly
`max(int(total_duration * chunk_words / total_words), min_duration_ms)` from its
start, and the next piece starts where it ends. -/
lemma timingChunks_step (D E m : ℤ) (W : ℕ) (pairs : List (List Char × ℕ)) :
    ∀ (s : ℤ) (i : ℕ), i + 1 < pairs.length →
    ((timingChunks D E m W pairs s).getD i ⟨0, 0, []⟩).stop =
      ((timingChunks D E m W pairs s).getD i ⟨0, 0, []⟩).start +
        max (pyTrunc ((D : ℚ) * (((pairs.getD i ([], 0)).2 : ℚ) / (W : ℚ)))) m ∧
    ((timingChunks D E m W pairs s).getD (i + 1) ⟨0, 0, []⟩).start =
      ((timingChunks D E m W pairs s).getD i ⟨0, 0, []⟩).stop := by
  induction pairs with
  | nil => intro s i h; simp at h
  | cons p rest ih =>
    intro s i h
    rcases p with ⟨t, w⟩
    cases rest with
    | nil => simp at h
    | cons q rest2 =>
      have hcl : (if s + max (pyTrunc ((D : ℚ) * ((w : ℚ) / (W : ℚ)))) m - s < m then
          s + m else s + max (pyTrunc ((D : ℚ) * ((w : ℚ) / (W : ℚ)))) m) =
          s + max (pyTrunc ((D : ℚ) * ((w : ℚ) / (W : ℚ)))) m := by
        have := le_max_right (pyTrunc ((D : ℚ) * ((w : ℚ) / (W : ℚ)))) m
        rw [if_neg (by omega)]
      cases i with
      | zero =>
        constructor
        · simp [timingChunks, hcl, List.getD]
        · simp only [timingChunks, hcl]
          have hh := timingChunks_head_start D E m W (q :: rest2)
            (s + max (pyTrunc ((D : ℚ) * ((w : ℚ) / (W : ℚ)))) m) (by simp)
          simp only [List.getD] at hh ⊢
          simpa using hh
      | succ k =>
        have hk : k + 1 < (q :: rest2).length := by
          simpa using h
        have := ih (s + max (pyTrunc ((D : ℚ) * ((w : ℚ) / (W : ℚ)))) m) k hk
        simpa [timingChunks, hcl] using this

/-- Dispatch of `balanceOne`: when the result has two or more pieces, the cue was
over budget, its two-phase split had at least two chunks with a non-zero total
word count, and the pieces are the timing loop's output. -/
lemma balanceOne_split (B : SubtitleBalancer) (line : SubtitleEvent)
    (pieces : List SubtitleEvent) (hok : balanceOne B line = .ok pieces)
    (hsplit : 2 ≤ pieces.length) :
    B.max_words_per_screen < count_words line.text ∧
    (split_text_smartly line.text B.max_words_per_screen).length ≠ 1 ∧
    ((split_text_smartly line.text B.max_words_per_screen).map count_words).sum ≠ 0 ∧
    pieces = timingChunks (line.stop - line.start) line.stop B.min_duration_ms
      ((split_text_smartly line.text B.max_words_per_screen).map count_words).sum
      ((split_text_smartly line.text B.max_words_per_screen).zip
        ((split_text_smartly line.text B.max_words_per_screen).map count_words))
      line.start := by
  simp only [balanceOne] at hok
  split_ifs at hok with h1 h2 h3
  · obtain rfl : [line] = pieces := by simpa using hok
    simp at hsplit
  · obtain rfl : [line] = pieces := by simpa using hok
    simp at hsplit
  · rw [Except.ok.injEq] at hok
    replace hok : pieces = timingChunks (line.stop - line.start) line.stop
        B.min_duration_ms
        ((split_text_smartly line.text B.max_words_per_screen).map count_words).sum
        ((split_text_smartly line.text B.max_words_per_screen).zip
          ((split_text_smartly line.text B.max_words_per_screen).map count_words))
        line.start := hok.symm
    have hW : ((split_text_smartly line.text B.max_words_per_screen).map
        count_words).sum ≠ 0 := by
      intro h0
      have hlen2 : 2 ≤ (split_text_smartly line.text B.max_words_per_screen).length := by
        have hl := timingChunks_length (line.stop - line.start) line.stop
          B.min_duration_ms
          ((split_text_smartly line.text B.max_words_per_screen).map count_words).sum
          ((split_text_smartly line.text B.max_words_per_screen).zip
            ((split_text_smartly line.text B.max_words_per_screen).map count_words))
          line.start
        rw [hok, hl] at hsplit
        rw [List.length_zip, List.length_map, min_self] at hsplit
        omega
      exact h3 ⟨hlen2, h0⟩
    exact ⟨not_le.1 h1, h2, hW, hok⟩

/-- The second component of an element of a zip is the element of the second
list. -/
lemma zip_getD_snd {α β : Type} (l1 : List α) :
    ∀ (l2 : List β) (i : ℕ) (a : α) (b : β), i < l1.length → i < l2.length →
    ((l1.zip l2).getD i (a, b)).2 = l2.getD i b := by
  induction l1 with
  | nil => intro l2 i a b h1 _; simp at h1
  | cons x xs ih =>
    intro l2 i a b h1 h2
    cases l2 with
    | nil => simp at h2
    | cons y ys =>
      cases i with
      | zero => rfl
      | succ k =>
        simp only [List.zip_cons_cons, List.getD_cons_succ]
        exact ih ys k a b (by simpa using h1) (by simpa using h2)

/-- One-cue runs of the balancer: the cue's pieces are the whole output. -/
lemma balance_subtitles_singleton (B : SubtitleBalancer) (e : SubtitleEvent)
    (pieces : List SubtitleEvent) (h : balanceOne B e = .ok pieces) :
    balance_subtitles B [e] = .ok pieces := by
  simp [balance_subtitles, h]

/-- Evaluation of the balancer at the span-preservation counterexample: an
11-one-letter-word cue over `[0, 1050)` with a 10-word budget splits 10 + 1
words; the first piece takes `max(int(1050 * 10 / 11), 1000) = 1000` ms, leaving
50 ms, so the last piece is forced to end at 2000 ms — past the original end. -/
lemma balanceOne_span_cex_eval :
    balanceOne ⟨10, 1000⟩ ⟨0, 1050, "a b c d e f g h i j k".toList⟩ =
      .ok [⟨0, 1000, "a b c d e f g h i j".toList⟩, ⟨1000, 2000, ['k']⟩] := by
  have h1 : ¬ (count_words "a b c d e f g h i j k".toList ≤ 10) := by decide
  have h2 : split_text_smartly "a b c d e f g h i j k".toList 10 =
      ["a b c d e f g h i j".toList, ['k']] := by decide
  have h3 : count_words "a b c d e f g h i j".toList = 10 := by decide
  have h4 : count_words (['k'] : List Char) = 1 := by decide
  simp only [balanceOne, h2, h3, h4, List.map_cons, List.map_nil, List.length_cons,
    List.length_nil, List.zip_cons_cons, List.zip_nil_right, List.sum_cons,
    List.sum_nil]
  rw [if_neg h1]
  norm_num
  have h6 : Int.tdiv 10500 11 = 954 := by decide
  have h7 : ((954 : ℤ) ⊔ 1000) = 1000 := max_eq_right (by norm_num)
  simp only [timingChunks]
  rw [pyTrunc_mul_ratio 1050 10 11 (by norm_num)]
  norm_num [h6, h7]

/-- C2 counterexample: the claim says the last piece of every split cue ends
exactly at the original cue's end. Balancing the 11-word cue `(0, 1050)` with
`maxWordsPerCue = 10`, `minDurationMs = 1000` splits it in two, and the
minimum-duration floor pushes the last piece's end to 2000, not 1050. -/
theorem balance_span_preservation_cex :
    balance_subtitles ⟨10, 1000⟩ [⟨0, 1050, "a b c d e f g h i j k".toList⟩] =
      .ok [⟨0, 1000, "a b c d e f g h i j".toList⟩, ⟨1000, 2000, ['k']⟩] ∧
    (2000 : ℤ) ≠ 1050 := by
  refine ⟨?_, by norm_num⟩
  exact balance_subtitles_singleton _ _ _ balanceOne_span_cex_eval

/-- C2 (amended): for every cue that `balance_subtitles` splits into two or more
pieces, the last piece's end is the original cue's end — unless fewer than
`minDurationMs` remain after the earlier pieces, in which case it is the last
piece's start plus `minDurationMs`; that is, the last piece ends at
`max(originalEnd, lastStart + minDurationMs)`. -/
theorem balance_last_piece_end (B : SubtitleBalancer) (line : SubtitleEvent)
    (pieces : List SubtitleEvent) (hok : balanceOne B line = .ok pieces)
    (hsplit : 2 ≤ pieces.length) :
    ∃ last : SubtitleEvent, pieces.getLast? = some last ∧
      last.stop = max line.stop (last.start + B.min_duration_ms) := by
  obtain ⟨hcnt, hne1, hW, hpieces⟩ := balanceOne_split B line pieces hok hsplit
  have hpne : (split_text_smartly line.text B.max_words_per_screen).zip
      ((split_text_smartly line.text B.max_words_per_screen).map count_words) ≠ [] := by
    intro h0
    rw [hpieces, h0] at hsplit
    simp [timingChunks] at hsplit
  obtain ⟨last, hl, hs⟩ := timingChunks_last (line.stop - line.start) line.stop
    B.min_duration_ms
    ((split_text_smartly line.text B.max_words_per_screen).map count_words).sum
    ((split_text_smartly line.text B.max_words_per_screen).zip
      ((split_text_smartly line.text B.max_words_per_screen).map count_words))
    line.start hpne
  refine ⟨last, by rw [hpieces]; exact hl, ?_⟩
  rcases lt_or_le (line.stop - last.start) B.min_duration_ms with h | h
  · rw [hs, if_pos h]
    exact (max_eq_right (by omega)).symm
  · rw [hs, if_neg (not_lt.2 h)]
    exact (max_eq_left (by omega)).symm

/-- C2 witness: the amended statement applied at the counterexample input — the
last piece (1000, 2000, "k") satisfies `end = max(1050, start + 1000) = 2000`. -/
theorem balance_last_piece_end_witness :
    ∃ last : SubtitleEvent,
      ([⟨0, 1000, "a b c d e f g h i j".toList⟩,
        ⟨1000, 2000, ['k']⟩] : List SubtitleEvent).getLast? = some last ∧
      last.stop = max (1050 : ℤ) (last.start + 1000) :=
  balance_last_piece_end ⟨10, 1000⟩ ⟨0, 1050, "a b c d e f g h i j k".toList⟩ _
    balanceOne_span_cex_eval (by norm_num)

/-- Evaluation of the balancer at the rounding counterexample: the 5-word cue
`(0, 10002)` with a 2-word budget splits 2 + 2 + 1 words; each non-last piece
takes `int(10002 * 2 / 5) = int(4000.8) = 4000` ms (truncation, where rounding
would give 4001). -/
lemma balanceOne_round_cex_eval :
    balanceOne ⟨2, 1000⟩ ⟨0, 10002, "a b c d e".toList⟩ =
      .ok [⟨0, 4000, "a b".toList⟩, ⟨4000, 8000, "c d".toList⟩,
        ⟨8000, 10002, ['e']⟩] := by
  have h1 : ¬ (count_words "a b c d e".toList ≤ 2) := by decide
  have h2 : split_text_smartly "a b c d e".toList 2 =
      ["a b".toList, "c d".toList, ['e']] := by decide
  have h3 : count_words "a b".toList = 2 := by decide
  have h3b : count_words "c d".toList = 2 := by decide
  have h4 : count_words (['e'] : List Char) = 1 := by decide
  simp only [balanceOne, h2, h3, h3b, h4, List.map_cons, List.map_nil,
    List.length_cons, List.length_nil, List.zip_cons_cons, List.zip_nil_right,
    List.sum_cons, List.sum_nil]
  rw [if_neg h1]
  norm_num
  have h6 : Int.tdiv 20004 5 = 4000 := by decide
  have h7 : ((4000 : ℤ) ⊔ 1000) = 4000 := max_eq_left (by norm_num)
  simp only [timingChunks]
  rw [pyTrunc_mul_ratio 10002 2 5 (by norm_num)]
  norm_num [h6, h7]

/-- C6 counterexample: the claim computes every non-last piece's duration with
`round`. The 5-word cue `(0, 10002)` with `maxWordsPerCue = 2` splits into word
counts 2, 2, 1; the code gives the first piece `int(10002 * 2/5) = 4000` ms,
while the claim's `max(round(10002 * 2/5), 1000) = 4001`. -/
theorem split_timing_round_cex :
    balance_subtitles ⟨2, 1000⟩ [⟨0, 10002, "a b c d e".toList⟩] =
      .ok [⟨0, 4000, "a b".toList⟩, ⟨4000, 8000, "c d".toList⟩,
        ⟨8000, 10002, ['e']⟩] ∧
    max (round ((10002 : ℚ) * ((2 : ℚ) / (5 : ℚ)))) 1000 ≠ (4000 : ℤ) - 0 := by
  constructor
  · exact balance_subtitles_singleton _ _ _ balanceOne_round_cex_eval
  · have : round ((10002 : ℚ) * ((2 : ℚ) / (5 : ℚ))) = 4001 := by
      rw [round_eq]
      norm_num
    rw [this]
    norm_num

/-- C6 (amended): when a cue spanning `[S, E)` is split into `k ≥ 2` pieces with
word counts `w_1..w_k` (`W` their sum), every non-last piece `i` spans exactly
`max(int((E-S) * w_i / W), minDurationMs)` — `int` truncation of the rational
value, not rounding — from its start, and the next piece starts where it ends.
(The claim's ten-word example is unaffected because `10000 * 5/10` is exact.) -/
theorem split_timing_formula (B : SubtitleBalancer) (line : SubtitleEvent)
    (pieces : List SubtitleEvent) (hok : balanceOne B line = .ok pieces)
    (hsplit : 2 ≤ pieces.length) (i : ℕ) (hi : i + 1 < pieces.length) :
    (pieces.getD i ⟨0, 0, []⟩).stop = (pieces.getD i ⟨0, 0, []⟩).start +
      max (pyTrunc (((line.stop - line.start : ℤ) : ℚ) *
        (((((split_text_smartly line.text B.max_words_per_screen).map
              count_words).getD i 0 : ℕ) : ℚ) /
         ((((split_text_smartly line.text B.max_words_per_screen).map
              count_words).sum : ℕ) : ℚ))))
        B.min_duration_ms ∧
    (pieces.getD (i + 1) ⟨0, 0, []⟩).start = (pieces.getD i ⟨0, 0, []⟩).stop := by
  obtain ⟨hcnt, hne1, hW, hpieces⟩ := balanceOne_split B line pieces hok hsplit
  have hlenp : pieces.length =
      ((split_text_smartly line.text B.max_words_per_screen).zip
        ((split_text_smartly line.text B.max_words_per_screen).map count_words)).length := by
    rw [hpieces, timingChunks_length]
  have hlenz : ((split_text_smartly line.text B.max_words_per_screen).zip
      ((split_text_smartly line.text B.max_words_per_screen).map count_words)).length =
      (split_text_smartly line.text B.max_words_per_screen).length := by
    rw [List.length_zip, List.length_map, min_self]
  have hstep := timingChunks_step (line.stop - line.start) line.stop
    B.min_duration_ms
    ((split_text_smartly line.text B.max_words_per_screen).map count_words).sum
    ((split_text_smartly line.text B.max_words_per_screen).zip
      ((split_text_smartly line.text B.max_words_per_screen).map count_words))
    line.start i (by rw [← hlenp]; exact hi)
  rw [← hpieces] at hstep
  have hz := zip_getD_snd (split_text_smartly line.text B.max_words_per_screen)
    ((split_text_smartly line.text B.max_words_per_screen).map count_words)
    i [] 0 (by rw [← hlenz, ← hlenp]; omega)
    (by simp only [List.length_map]; rw [← hlenz, ← hlenp]; omega)
  rw [hz] at hstep
  exact hstep

/-- Evaluation of the balancer at the spec's ten-word example: cue `(0, 10000)`
with budget 5 and minimum 1000 splits into `[0, 5000)` and `[5000, 10000)`. -/
lemma balanceOne_ten_words_eval :
    balanceOne ⟨5, 1000⟩
      ⟨0, 10000, "one two three four five six seven eight nine ten".toList⟩ =
      .ok [⟨0, 5000, "one two three four five".toList⟩,
        ⟨5000, 10000, "six seven eight nine ten".toList⟩] := by
  have h1 : ¬ (count_words
      "one two three four five six seven eight nine ten".toList ≤ 5) := by decide
  have h2 : split_text_smartly
      "one two three four five six seven eight nine ten".toList 5 =
      ["one two three four five".toList, "six seven eight nine ten".toList] := by
    decide
  have h3 : count_words "one two three four five".toList = 5 := by decide
  have h4 : count_words "six seven eight nine ten".toList = 5 := by decide
  simp only [balanceOne, h2, h3, h4, List.map_cons, List.map_nil,
    List.length_cons, List.length_nil, List.zip_cons_cons, List.zip_nil_right,
    List.sum_cons, List.sum_nil]
  rw [if_neg h1]
  norm_num
  have h6 : Int.tdiv 50000 10 = 5000 := by decide
  have h7 : ((5000 : ℤ) ⊔ 1000) = 5000 := max_eq_left (by norm_num)
  simp only [timingChunks]
  rw [pyTrunc_mul_ratio 10000 5 10 (by norm_num)]
  norm_num [h6, h7]

/-- C6 witness: the claim's ten-word example — cue `(0, 10000)` of ten one-word
tokens, budget 5, minimum 1000 — yields pieces `[0, 5000)` and `[5000, 10000)`,
and piece 0 satisfies the truncated-duration formula `0 + max(int(10000 * 5/10),
1000) = 5000` with piece 1 starting at its end. -/
theorem split_timing_formula_witness :
    balanceOne ⟨5, 1000⟩
      ⟨0, 10000, "one two three four five six seven eight nine ten".toList⟩ =
      .ok [⟨0, 5000, "one two three four five".toList⟩,
        ⟨5000, 10000, "six seven eight nine ten".toList⟩] ∧
    (5000 : ℤ) = 0 + max (pyTrunc ((10000 : ℚ) * ((5 : ℚ) / (10 : ℚ)))) 1000 ∧
    (5000 : ℤ) = (5000 : ℤ) := by
  have h2 : split_text_smartly
      "one two three four five six seven eight nine ten".toList 5 =
      ["one two three four five".toList, "six seven eight nine ten".toList] := by
    decide
  have h3 : count_words "one two three four five".toList = 5 := by decide
  have h4 : count_words "six seven eight nine ten".toList = 5 := by decide
  have heval := balanceOne_ten_words_eval
  refine ⟨heval, ?_, rfl⟩
  have h := (split_timing_formula ⟨5, 1000⟩ _ _ heval (by norm_num) 0
    (by norm_num)).1
  rw [h2] at h
  simp only [List.map_cons, List.map_nil, h3, h4, List.getD_cons_zero,
    List.sum_cons, List.sum_nil] at h
  convert h using 3

/-! ### Token counting: `str.split()` token counts never grow when characters
are removed, so stripping tags cannot raise a word count. -/

lemma splitWsAux_space (c : Char) (cs : List Char) (h : pySpace c = true) :
    splitWsAux (c :: cs) = ([], pySplitWs cs) := by
  simp [splitWsAux, pySplitWs, h]

lemma splitWsAux_nonspace (c : Char) (cs : List Char) (h : pySpace c = false) :
    splitWsAux (c :: cs) = (c :: (splitWsAux cs).1, (splitWsAux cs).2) := by
  simp [splitWsAux, h]

lemma toks_le_count (l : List Char) :
    (splitWsAux l).2.length ≤ (pySplitWs l).length := by
  unfold pySplitWs
  by_cases h : (splitWsAux l).1.isEmpty <;> simp [h]

lemma count_le_toks_succ (l : List Char) :
    (pySplitWs l).length ≤ (splitWsAux l).2.length + 1 := by
  unfold pySplitWs
  by_cases h : (splitWsAux l).1.isEmpty <;> simp [h]

lemma count_space_cons (c : Char) (l : List Char) (h : pySpace c = true) :
    (pySplitWs (c :: l)).length = (pySplitWs l).length := by
  unfold pySplitWs
  rw [splitWsAux_space c l h]
  simp [pySplitWs]

lemma toks_space_cons (c : Char) (l : List Char) (h : pySpace c = true) :
    (splitWsAux (c :: l)).2.length = (pySplitWs l).length := by
  rw [splitWsAux_space c l h]

lemma count_nonspace_cons (c : Char) (l : List Char) (h : pySpace c = false) :
    (pySplitWs (c :: l)).length = (splitWsAux l).2.length + 1 := by
  unfold pySplitWs
  rw [splitWsAux_nonspace c l h]
  simp

lemma toks_nonspace_cons (c : Char) (l : List Char) (h : pySpace c = false) :
    (splitWsAux (c :: l)).2.length = (splitWsAux l).2.length := by
  rw [splitWsAux_nonspace c l h]

/-- Removing characters (taking a sublist) never increases the number of
completed tokens nor the number of `split()` tokens. -/
lemma splitWs_sublist_le {l2 l1 : List Char} (h : l2.Sublist l1) :
    (splitWsAux l2).2.length ≤ (splitWsAux l1).2.length ∧
    (pySplitWs l2).length ≤ (pySplitWs l1).length := by
  induction h with
  | slnil => exact ⟨le_refl _, le_refl _⟩
  | @cons l2 l1 a h ih =>
    rcases hsp : pySpace a with _ | _
    · refine ⟨?_, ?_⟩
      · rw [toks_nonspace_cons a l1 hsp]
        exact ih.1
      · rw [count_nonspace_cons a l1 hsp]
        exact le_trans ih.2 (count_le_toks_succ l1)
    · refine ⟨?_, ?_⟩
      · rw [toks_space_cons a l1 hsp]
        exact le_trans ih.1 (toks_le_count l1)
      · rw [count_space_cons a l1 hsp]
        exact ih.2
  | @cons₂ l2 l1 a h ih =>
    rcases hsp : pySpace a with _ | _
    · refine ⟨?_, ?_⟩
      · rw [toks_nonspace_cons a l2 hsp, toks_nonspace_cons a l1 hsp]
        exact ih.1
      · rw [count_nonspace_cons a l2 hsp, count_nonspace_cons a l1 hsp]
        omega
    · refine ⟨?_, ?_⟩
      · rw [toks_space_cons a l2 hsp, toks_space_cons a l1 hsp]
        exact ih.2
      · rw [count_space_cons a l2 hsp, count_space_cons a l1 hsp]
        exact ih.2

lemma splitAtGt_sublist (cs rest : List Char) (h : splitAtGt cs = some rest) :
    rest.Sublist cs := by
  unfold splitAtGt at h
  split_ifs at h
  obtain rfl : rest = (cs.dropWhile (· ≠ '>')).tail := by simpa using h.symm
  exact (List.tail_sublist _).trans (List.dropWhile_sublist _)

lemma stripTagsF_sublist (fuel : ℕ) : ∀ s : List Char, (stripTagsF fuel s).Sublist s := by
  induction fuel with
  | zero => intro s; exact List.Sublist.refl s
  | succ f ih =>
    intro s
    cases s with
    | nil => exact List.Sublist.refl _
    | cons c cs =>
      rw [stripTagsF]
      split_ifs with hc
      · rcases hg : splitAtGt cs with _ | rest
        · exact (ih cs).cons₂ c
        · exact ((ih rest).trans (splitAtGt_sublist cs rest hg)).cons c
      · exact (ih cs).cons₂ c

lemma stripTags_sublist (s : List Char) : (stripTags s).Sublist s :=
  stripTagsF_sublist s.length s

/-- Stripping tags cannot raise the word count above the raw token count. -/
lemma count_words_le_tokens (x : List Char) :
    count_words x ≤ (pySplitWs x).length :=
  (splitWs_sublist_le (stripTags_sublist x)).2

/-- The pending token and the completed tokens of the `split()` scan hold no
whitespace, and completed tokens are non-empty. -/
lemma splitWsAux_clean (l : List Char) :
    (∀ c ∈ (splitWsAux l).1, pySpace c = false) ∧
    (∀ t ∈ (splitWsAux l).2, t ≠ [] ∧ ∀ c ∈ t, pySpace c = false) := by
  induction l with
  | nil => simp [splitWsAux]
  | cons c cs ih =>
    rcases hsp : pySpace c with _ | _
    · rw [splitWsAux_nonspace c cs hsp]
      refine ⟨?_, ih.2⟩
      intro x hx
      rcases List.mem_cons.1 hx with rfl | hx
      · exact hsp
      · exact ih.1 x hx
    · rw [splitWsAux_space c cs hsp]
      refine ⟨by simp, ?_⟩
      intro t ht
      simp only [pySplitWs] at ht
      by_cases he : (splitWsAux cs).1.isEmpty = true
      · rw [if_pos he] at ht
        exact ih.2 t ht
      · rw [if_neg he] at ht
        rcases List.mem_cons.1 ht with h1 | h2
        · subst h1
          exact ⟨by simpa [List.isEmpty_iff] using he, ih.1⟩
        · exact ih.2 t h2

/-- Tokens of Python `split()` are non-empty and whitespace-free. -/
lemma pySplitWs_clean (l : List Char) :
    ∀ t ∈ pySplitWs l, t ≠ [] ∧ ∀ c ∈ t, pySpace c = false := by
  intro t ht
  simp only [pySplitWs] at ht
  by_cases he : (splitWsAux l).1.isEmpty = true
  · rw [if_pos he] at ht
    exact (splitWsAux_clean l).2 t ht
  · rw [if_neg he] at ht
    rcases List.mem_cons.1 ht with h1 | h2
    · subst h1
      exact ⟨by simpa [List.isEmpty_iff] using he, (splitWsAux_clean l).1⟩
    · exact (splitWsAux_clean l).2 t h2

lemma splitWsAux_single (t : List Char) (hns : ∀ c ∈ t, pySpace c = false) :
    splitWsAux t = (t, []) := by
  induction t with
  | nil => rfl
  | cons c cs ih =>
    rw [splitWsAux_nonspace c cs (hns c (by simp)),
      ih fun x hx => hns x (by simp [hx])]

/-- A single non-empty whitespace-free token splits to itself. -/
lemma pySplitWs_single (t : List Char) (hne : t ≠ [])
    (hns : ∀ c ∈ t, pySpace c = false) : pySplitWs t = [t] := by
  unfold pySplitWs
  rw [splitWsAux_single t hns]
  simp [hne]

lemma splitWsAux_append_space (a b : List Char) :
    splitWsAux (a ++ ' ' :: b) =
      ((splitWsAux a).1, (splitWsAux a).2 ++ pySplitWs b) := by
  induction a with
  | nil =>
    rw [List.nil_append, splitWsAux_space ' ' b (by decide)]
    rfl
  | cons c cs ih =>
    rcases hsp : pySpace c with _ | _
    · rw [List.cons_append, splitWsAux_nonspace c _ hsp, ih,
        splitWsAux_nonspace c cs hsp]
    · rw [List.cons_append, splitWsAux_space c _ hsp, splitWsAux_space c cs hsp]
      unfold pySplitWs
      rw [ih]
      by_cases he : (splitWsAux cs).1.isEmpty <;> simp [pySplitWs, he]

/-- Splitting across an explicit space splits each side independently. -/
lemma pySplitWs_append_space (a b : List Char) :
    pySplitWs (a ++ ' ' :: b) = pySplitWs a ++ pySplitWs b := by
  unfold pySplitWs
  rw [splitWsAux_append_space]
  by_cases he : (splitWsAux a).1.isEmpty <;> simp [pySplitWs, he]

lemma joinSep_cons_cons (sep : List Char) (x y : List Char) (ys : List (List Char)) :
    joinSep sep (x :: y :: ys) = x ++ sep ++ joinSep sep (y :: ys) := rfl

/-- Rejoining non-empty whitespace-free tokens with single spaces and splitting
again recovers the tokens. -/
lemma pySplitWs_joinSpace (ts : List (List Char))
    (h : ∀ t ∈ ts, t ≠ [] ∧ ∀ c ∈ t, pySpace c = false) :
    pySplitWs (joinSep [' '] ts) = ts := by
  induction ts with
  | nil => rfl
  | cons x xs ih =>
    cases xs with
    | nil =>
      show pySplitWs x = [x]
      exact pySplitWs_single x (h x (by simp)).1 (h x (by simp)).2
    | cons y ys =>
      rw [joinSep_cons_cons, List.append_assoc, List.singleton_append,
        pySplitWs_append_space, ih fun t ht => h t (by simp [List.mem_cons] at ht ⊢; tauto),
        pySplitWs_single x (h x (by simp)).1 (h x (by simp)).2]
      rfl

/-- The word count of tokens rejoined with spaces is at most the token count. -/
lemma count_words_joinSpace_le (ts : List (List Char))
    (h : ∀ t ∈ ts, t ≠ [] ∧ ∀ c ∈ t, pySpace c = false) :
    count_words (joinSep [' '] ts) ≤ ts.length := by
  have := count_words_le_tokens (joinSep [' '] ts)
  rwa [pySplitWs_joinSpace ts h] at this

/-- Every piece the word-fallback loop emits stays within the word budget
(for a positive budget, with clean incoming tokens and a within-budget
accumulator). -/
lemma wordSplitLoop_budget (max_words : ℕ) (hmax : 1 ≤ max_words) :
    ∀ (ws temp : List (List Char)),
      (∀ t ∈ ws, t ≠ [] ∧ ∀ c ∈ t, pySpace c = false) →
      (∀ t ∈ temp, t ≠ [] ∧ ∀ c ∈ t, pySpace c = false) →
      temp.length ≤ max_words →
      ∀ p ∈ wordSplitLoop max_words ws temp, count_words p ≤ max_words := by
  intro ws
  induction ws with
  | nil =>
    intro temp hws htemp hlen p hp
    simp only [wordSplitLoop] at hp
    by_cases he : temp.isEmpty = true
    · rw [if_pos he] at hp
      simp at hp
    · rw [if_neg he] at hp
      rcases List.mem_singleton.1 hp with rfl
      exact le_trans (count_words_joinSpace_le temp htemp) hlen
  | cons w rest ih =>
    intro temp hws htemp hlen p hp
    simp only [wordSplitLoop] at hp
    split_ifs at hp with hc
    · rcases List.mem_cons.1 hp with h1 | h2
      · subst h1
        exact le_trans (count_words_joinSpace_le temp htemp) hlen
      · refine ih [w] (fun t ht => hws t (by simp [ht])) ?_ (by simpa using hmax) p h2
        intro t ht
        rcases List.mem_singleton.1 ht with rfl
        exact hws t (by simp)
    · refine ih (temp ++ [w]) (fun t ht => hws t (by simp [ht])) ?_ ?_ p hp
      · intro t ht
        rcases List.mem_append.1 ht with h1 | h2
        · exact htemp t h1
        · rcases List.mem_singleton.1 h2 with rfl
          exact hws t (by simp)
      · rw [List.length_append, List.length_singleton]
        by_cases he : temp = []
        · subst he
          simpa using hmax
        · push_neg at hc
          have hlen2 : ¬ (max_words < temp.length + 1) := by
            intro hlt
            have hemp := hc hlt
            simp [List.isEmpty_iff] at hemp
            exact he hemp
          omega

/-- Every chunk of the two-phase split stays within a positive word budget. -/
lemma split_text_smartly_budget (t : List Char) (max_words : ℕ)
    (hmax : 1 ≤ max_words) :
    ∀ p ∈ split_text_smartly t max_words, count_words p ≤ max_words := by
  intro p hp
  unfold split_text_smartly phase2 at hp
  rcases List.mem_flatMap.1 hp with ⟨chunk, hchunk, hpc⟩
  by_cases hc : count_words chunk ≤ max_words
  · rw [if_pos hc] at hpc
    rcases List.mem_singleton.1 hpc with rfl
    exact hc
  · rw [if_neg hc] at hpc
    exact wordSplitLoop_budget max_words hmax _ []
      (pySplitWs_clean _) (by simp) (by simp) p hpc

/-- Every cue of the balancer's output comes from some input cue's pieces. -/
lemma balance_subtitles_mem (B : SubtitleBalancer) :
    ∀ (subs out : List SubtitleEvent), balance_subtitles B subs = .ok out →
    ∀ p ∈ out, ∃ e ∈ subs, ∃ pieces, balanceOne B e = .ok pieces ∧ p ∈ pieces := by
  intro subs
  induction subs with
  | nil =>
    intro out h p hp
    obtain rfl : out = [] := by simpa [balance_subtitles] using h.symm
    simp at hp
  | cons e rest ih =>
    intro out h p hp
    simp only [balance_subtitles] at h
    rcases hb : balanceOne B e with err | pieces <;> rw [hb] at h
    · simp at h
    · rcases hr : balance_subtitles B rest with err | tl <;> rw [hr] at h
      · simp at h
      · obtain rfl : pieces ++ tl = out := by simpa using h
        rcases List.mem_append.1 hp with h1 | h2
        · exact ⟨e, by simp, pieces, hb, h1⟩
        · obtain ⟨e2, he2, pcs, hok2, hp2⟩ := ih tl hr p h2
          exact ⟨e2, by simp [he2], pcs, hok2, hp2⟩

/-- C5: with a positive word budget, every cue in the output of
`balance_subtitles` has word count (tags stripped, whitespace split, non-empty
tokens counted) at most `maxWordsPerCue`, except cues whose two-phase split
produced a single piece, which are kept unchanged and may exceed the budget. -/
theorem balance_word_budget (B : SubtitleBalancer)
    (hmax : 1 ≤ B.max_words_per_screen) (subs out : List SubtitleEvent)
    (hok : balance_subtitles B subs = .ok out) (e : SubtitleEvent) (he : e ∈ out) :
    count_words e.text ≤ B.max_words_per_screen ∨
    (split_text_smartly e.text B.max_words_per_screen).length = 1 := by
  obtain ⟨orig, _, pieces, hbo, hmem⟩ := balance_subtitles_mem B subs out hok e he
  by_cases h1 : count_words orig.text ≤ B.max_words_per_screen
  · obtain rfl : pieces = [orig] := by simpa [balanceOne, h1] using hbo.symm
    rcases List.mem_singleton.1 hmem with rfl
    exact Or.inl h1
  · by_cases h2 : (split_text_smartly orig.text B.max_words_per_screen).length = 1
    · obtain rfl : pieces = [orig] := by simpa [balanceOne, h1, h2] using hbo.symm
      rcases List.mem_singleton.1 hmem with rfl
      exact Or.inr h2
    · simp only [balanceOne] at hbo
      split_ifs at hbo with h3
      rw [Except.ok.injEq] at hbo
      have htexts : pieces.map SubtitleEvent.text =
          split_text_smartly orig.text B.max_words_per_screen := by
        rw [← hbo, timingChunks_texts, List.map_fst_zip]
        simp
      have hmemtext : e.text ∈ split_text_smartly orig.text B.max_words_per_screen := by
        rw [← htexts]
        exact List.mem_map_of_mem SubtitleEvent.text hmem
      exact Or.inl (split_text_smartly_budget orig.text B.max_words_per_screen hmax
        e.text hmemtext)

/-- C5 witness: applying the budget theorem to the first output cue of balancing
the 11-word cue with budget 10 — its word count is within the budget. -/
theorem balance_word_budget_witness :
    count_words "a b c d e f g h i j".toList ≤ 10 ∨
    (split_text_smartly "a b c d e f g h i j".toList 10).length = 1 :=
  balance_word_budget ⟨10, 1000⟩ (by norm_num)
    [⟨0, 1050, "a b c d e f g h i j k".toList⟩]
    [⟨0, 1000, "a b c d e f g h i j".toList⟩, ⟨1000, 2000, ['k']⟩]
    (balance_subtitles_singleton _ _ _ balanceOne_span_cex_eval)
    ⟨0, 1000, "a b c d e f g h i j".toList⟩ (by simp)

/-! ### Line-break bookkeeping: strings free of the `"\\N"` marker, and how
`replace("\\N", " ")` interacts with joining and splitting. -/

lemma nlFree_cons_iff (c : Char) (l : List Char) :
    nlFree (c :: l) = true ↔ ¬(c = '\\' ∧ l.head? = some 'N') ∧ nlFree l = true := by
  cases l with
  | nil => simp [nlFree]
  | cons d rest =>
    simp only [nlFree, Bool.and_eq_true, Bool.not_eq_true', decide_eq_false_iff_not,
      List.head?_cons, Option.some.injEq]

lemma nlFree_of_cons (c : Char) (l : List Char) (h : nlFree (c :: l) = true) :
    nlFree l = true := ((nlFree_cons_iff c l).1 h).2

lemma replaceNL_nlFree_id (l : List Char) (h : nlFree l = true) :
    replaceNL l = l := by
  induction l using replaceNL.induct with
  | case1 => rfl
  | case2 c => rfl
  | case3 c d rest hcond ih =>
    exfalso
    rcases hcond with ⟨rfl, rfl⟩
    simp [nlFree] at h
  | case4 c d rest hcond ih =>
    rw [replaceNL, if_neg hcond, ih (nlFree_of_cons c (d :: rest) h)]

lemma replaceNL_head (l : List Char) :
    (replaceNL l).head? = l.head? ∨ (replaceNL l).head? = some ' ' := by
  cases l with
  | nil => exact Or.inl rfl
  | cons c t =>
    cases t with
    | nil => exact Or.inl rfl
    | cons d rest =>
      rw [replaceNL]
      split_ifs with hcond
      · exact Or.inr rfl
      · exact Or.inl rfl

lemma nlFree_replaceNL (l : List Char) : nlFree (replaceNL l) = true := by
  induction l using replaceNL.induct with
  | case1 => rfl
  | case2 c => rfl
  | case3 c d rest hcond ih =>
    rw [replaceNL, if_pos hcond, nlFree_cons_iff]
    exact ⟨by simp, ih⟩
  | case4 c d rest hcond ih =>
    rw [replaceNL, if_neg hcond, nlFree_cons_iff]
    refine ⟨?_, ih⟩
    rintro ⟨rfl, hh⟩
    rcases replaceNL_head (d :: rest) with h1 | h1
    · rw [hh] at h1
      exact hcond ⟨rfl, by simpa using h1.symm⟩
    · rw [hh] at h1
      simp at h1

lemma replaceNL_append_sep (a b : List Char) (h : nlFree a = true) :
    replaceNL (a ++ '\\' :: 'N' :: b) = a ++ ' ' :: replaceNL b := by
  induction a with
  | nil =>
    rw [List.nil_append, replaceNL, if_pos ⟨rfl, rfl⟩, List.nil_append]
  | cons c t ih =>
    cases t with
    | nil =>
      rw [List.cons_append, List.nil_append, replaceNL,
        if_neg (by rintro ⟨rfl, h2⟩; simp at h2), replaceNL, if_pos ⟨rfl, rfl⟩]
      rfl
    | cons d t2 =>
      have hcd : ¬(c = '\\' ∧ d = 'N') := by
        have := ((nlFree_cons_iff c (d :: t2)).1 h).1
        simpa using this
      rw [List.cons_append, List.cons_append, replaceNL, if_neg hcd,
        ← List.cons_append, ih (nlFree_of_cons c (d :: t2) h)]
      rfl

lemma nlFree_append_space (a b : List Char) (ha : nlFree a = true)
    (hb : nlFree b = true) : nlFree (a ++ ' ' :: b) = true := by
  induction a with
  | nil =>
    rw [List.nil_append, nlFree_cons_iff]
    exact ⟨by simp, hb⟩
  | cons c t ih =>
    rw [List.cons_append, nlFree_cons_iff]
    refine ⟨?_, ih (nlFree_of_cons c t ha)⟩
    rintro ⟨rfl, hh⟩
    cases t with
    | nil => simp at hh
    | cons d t2 =>
      have := ((nlFree_cons_iff '\\' (d :: t2)).1 ha).1
      rw [List.cons_append] at hh
      exact this ⟨rfl, by simpa using hh⟩

lemma nlFree_joinSpace (ts : List (List Char)) (h : ∀ t ∈ ts, nlFree t = true) :
    nlFree (joinSep [' '] ts) = true := by
  induction ts with
  | nil => rfl
  | cons x xs ih =>
    cases xs with
    | nil => exact h x (by simp)
    | cons y ys =>
      rw [joinSep_cons_cons, List.append_assoc, List.singleton_append]
      exact nlFree_append_space x _ (h x (by simp))
        (ih fun t ht => h t (by simp [List.mem_cons] at ht ⊢; tauto))

lemma splitWsAux_fst_head (cs : List Char) :
    (splitWsAux cs).1 = [] ∨ (splitWsAux cs).1.head? = cs.head? := by
  cases cs with
  | nil => exact Or.inl rfl
  | cons c t =>
    rcases hsp : pySpace c with _ | _
    · rw [splitWsAux_nonspace c t hsp]
      exact Or.inr rfl
    · rw [splitWsAux_space c t hsp]
      exact Or.inl rfl

/-- On a marker-free string the `split()` scan yields marker-free tokens. -/
lemma splitWsAux_nlFree (l : List Char) (h : nlFree l = true) :
    nlFree (splitWsAux l).1 = true ∧ ∀ t ∈ (splitWsAux l).2, nlFree t = true := by
  induction l with
  | nil => exact ⟨rfl, by simp [splitWsAux]⟩
  | cons c cs ih =>
    have ihc := ih (nlFree_of_cons c cs h)
    rcases hsp : pySpace c with _ | _
    · rw [splitWsAux_nonspace c cs hsp]
      refine ⟨?_, ihc.2⟩
      rw [nlFree_cons_iff]
      refine ⟨?_, ihc.1⟩
      rintro ⟨rfl, hh⟩
      rcases splitWsAux_fst_head cs with h1 | h1
      · rw [h1] at hh
        simp at hh
      · rw [h1] at hh
        exact ((nlFree_cons_iff '\\' cs).1 h).1 ⟨rfl, hh⟩
    · rw [splitWsAux_space c cs hsp]
      refine ⟨rfl, ?_⟩
      intro t ht
      simp only [pySplitWs] at ht
      by_cases he : (splitWsAux cs).1.isEmpty = true
      · rw [if_pos he] at ht
        exact ihc.2 t ht
      · rw [if_neg he] at ht
        rcases List.mem_cons.1 ht with h1 | h2
        · subst h1
          exact ihc.1
        · exact ihc.2 t h2

lemma pySplitWs_nlFree (l : List Char) (h : nlFree l = true) :
    ∀ t ∈ pySplitWs l, nlFree t = true := by
  intro t ht
  simp only [pySplitWs] at ht
  by_cases he : (splitWsAux l).1.isEmpty = true
  · rw [if_pos he] at ht
    exact (splitWsAux_nlFree l h).2 t ht
  · rw [if_neg he] at ht
    rcases List.mem_cons.1 ht with h1 | h2
    · subst h1
      exact (splitWsAux_nlFree l h).1
    · exact (splitWsAux_nlFree l h).2 t h2

lemma pySplitNL_ne_nil (l : List Char) : pySplitNL l ≠ [] := by
  induction l using pySplitNL.induct with
  | case1 => simp [pySplitNL]
  | case2 c => simp [pySplitNL]
  | case3 c d rest hcond ih => rw [pySplitNL, if_pos hcond]; simp
  | case4 c d rest hcond hm ih => exact absurd hm ih
  | case5 c d rest hcond p ps hm ih =>
    rw [pySplitNL, if_neg hcond, hm]
    simp

/-- Splitting on the marker and rejoining with the marker is the identity. -/
lemma joinSep_pySplitNL (l : List Char) : joinSep ['\\', 'N'] (pySplitNL l) = l := by
  induction l using pySplitNL.induct with
  | case1 => rfl
  | case2 c => rfl
  | case3 c d rest hcond ih =>
    rcases hcond with ⟨rfl, rfl⟩
    rw [pySplitNL, if_pos ⟨rfl, rfl⟩]
    obtain ⟨p, ps, hm⟩ := List.exists_cons_of_ne_nil (pySplitNL_ne_nil rest)
    rw [hm] at ih ⊢
    rw [joinSep_cons_cons, ← ih]
    rfl
  | case4 c d rest hcond hm ih => exact absurd hm (pySplitNL_ne_nil (d :: rest))
  | case5 c d rest hcond p ps hm ih =>
    rw [pySplitNL, if_neg hcond, hm]
    rw [hm] at ih
    show joinSep ['\\', 'N'] ((c :: p) :: ps) = c :: d :: rest
    cases ps with
    | nil =>
      show c :: p = c :: d :: rest
      rw [show p = d :: rest from ih]
    | cons q qs =>
      rw [joinSep_cons_cons] at ih ⊢
      rw [List.cons_append, List.cons_append, ih]

lemma pySplitNL_head (l : List Char) :
    ∃ p ps, pySplitNL l = p :: ps ∧ (p = [] ∨ p.head? = l.head?) := by
  cases l with
  | nil => exact ⟨[], [], rfl, Or.inl rfl⟩
  | cons c t =>
    cases t with
    | nil => exact ⟨[c], [], rfl, Or.inr rfl⟩
    | cons d rest =>
      by_cases hcond : c = '\\' ∧ d = 'N'
      · exact ⟨[], pySplitNL rest, by rw [pySplitNL, if_pos hcond], Or.inl rfl⟩
      · rcases hm : pySplitNL (d :: rest) with _ | ⟨p, ps⟩
        · exact absurd hm (pySplitNL_ne_nil (d :: rest))
        · exact ⟨c :: p, ps, by rw [pySplitNL, if_neg hcond, hm], Or.inr rfl⟩

/-- The pieces of a marker split contain no marker. -/
lemma pySplitNL_pieces_nlFree (l : List Char) :
    ∀ p ∈ pySplitNL l, nlFree p = true := by
  induction l using pySplitNL.induct with
  | case1 => simp [pySplitNL, nlFree]
  | case2 c => simp [pySplitNL, nlFree]
  | case3 c d rest hcond ih =>
    rw [pySplitNL, if_pos hcond]
    intro p hp
    rcases List.mem_cons.1 hp with h1 | h2
    · subst h1; rfl
    · exact ih p h2
  | case4 c d rest hcond hm ih => exact absurd hm (pySplitNL_ne_nil (d :: rest))
  | case5 c d rest hcond p ps hm ih =>
    rw [pySplitNL, if_neg hcond, hm]
    intro x hx
    rcases List.mem_cons.1 hx with h1 | h2
    · subst h1
      rw [nlFree_cons_iff]
      refine ⟨?_, ih p (by rw [hm]; simp)⟩
      rintro ⟨rfl, hh⟩
      obtain ⟨p2, ps2, hm2, hor⟩ := pySplitNL_head (d :: rest)
      rw [hm] at hm2
      obtain rfl : p2 = p := ((List.cons.inj hm2).1).symm
      rcases hor with h1 | h1
      · subst h1; simp at hh
      · rw [hh] at h1
        exact hcond ⟨rfl, by simpa using h1.symm⟩
    · exact ih x (by rw [hm]; simp [h2])

/-- Phase 1 groups the lines into consecutive non-overlapping runs: its chunks
are the runs rejoined with the marker, and the runs concatenate (after the
pending chunk) to the processed lines. -/
lemma phase1Loop_structure (max_words : ℕ) :
    ∀ (lines current : List (List Char)) (cnt : ℕ),
    ∃ groups : List (List (List Char)),
      phase1Loop max_words lines current cnt = groups.map (joinSep ['\\', 'N']) ∧
      groups.flatten = current ++ lines := by
  intro lines
  induction lines with
  | nil =>
    intro current cnt
    by_cases he : current.isEmpty = true
    · refine ⟨[], ?_, by simp [List.isEmpty_iff.1 he]⟩
      simp [phase1Loop, he]
    · refine ⟨[current], ?_, by simp⟩
      simp [phase1Loop, he]
  | cons line rest ih =>
    intro current cnt
    simp only [phase1Loop]
    split_ifs with hc
    · obtain ⟨groups, h1, h2⟩ := ih [line] (pySplitWs line).length
      exact ⟨current :: groups, by simp [h1], by simp [h2]⟩
    · obtain ⟨groups, h1, h2⟩ := ih (current ++ [line]) (cnt + (pySplitWs line).length)
      exact ⟨groups, h1, by simp [h2]⟩

/-! ## C10: balancing preserves the token content of each cue -/

/-- Flattening a list of groups of token lists commutes with flattening the
groups first. -/
lemma flatten_map_flatten {A B : Type} (f : A → List B) :
    ∀ groups : List (List A),
      (groups.map fun g => (g.map f).flatten).flatten = (groups.flatten.map f).flatten := by
  intro groups
  induction groups with
  | nil => rfl
  | cons g gs ih =>
    simp only [List.map_cons, List.flatten_cons, List.map_append,
      List.flatten_append, ih]

/-- Splitting a space-join splits each part independently. -/
lemma pySplitWs_joinSpace_flatten :
    ∀ ts : List (List Char),
      pySplitWs (joinSep [' '] ts) = (ts.map pySplitWs).flatten := by
  intro ts
  induction ts with
  | nil => rfl
  | cons x xs ih =>
    cases xs with
    | nil =>
      show pySplitWs x = (List.map pySplitWs [x]).flatten
      simp
    | cons y ys =>
      rw [joinSep_cons_cons, List.append_assoc, List.singleton_append,
        pySplitWs_append_space, ih]
      simp

/-- On marker-free pieces, `replace` applied to a marker-join is the space-join. -/
lemma replaceNL_joinNL :
    ∀ group : List (List Char), (∀ p ∈ group, nlFree p = true) →
      replaceNL (joinSep ['\\', 'N'] group) = joinSep [' '] group := by
  intro group
  induction group with
  | nil => intro h; rfl
  | cons x xs ih =>
    intro h
    cases xs with
    | nil => exact replaceNL_nlFree_id x (h x (by simp))
    | cons y ys =>
      have hx := h x (by simp)
      have hrest : ∀ p ∈ y :: ys, nlFree p = true := fun p hp => h p (by simp [hp])
      have h1 : x ++ ['\\', 'N'] ++ joinSep ['\\', 'N'] (y :: ys) =
          x ++ '\\' :: 'N' :: joinSep ['\\', 'N'] (y :: ys) := by simp
      rw [joinSep_cons_cons, h1, replaceNL_append_sep x _ hx, ih hrest,
        joinSep_cons_cons]
      simp

/-- The tokens of a marker-join of marker-free pieces are the concatenated
tokens of the pieces. -/
lemma tokensNL_joinNL (group : List (List Char)) (h : ∀ p ∈ group, nlFree p = true) :
    tokensNL (joinSep ['\\', 'N'] group) = (group.map tokensNL).flatten := by
  simp only [tokensNL]
  rw [replaceNL_joinNL group h, pySplitWs_joinSpace_flatten]
  congr 1
  exact (List.map_congr_left fun p hp => by
    simp only [tokensNL, replaceNL_nlFree_id p (h p hp)]).symm

/-- The tokens of a text are the concatenated tokens of its marker-split lines. -/
lemma tokensNL_eq_lines (t : List Char) :
    tokensNL t = ((pySplitNL t).map tokensNL).flatten := by
  conv_lhs => rw [← joinSep_pySplitNL t]
  exact tokensNL_joinNL (pySplitNL t) (pySplitNL_pieces_nlFree t)

/-- Phase 1 of `split_text_smartly` preserves the token sequence of the text. -/
lemma phase1Loop_tokens (max_words : ℕ) (t : List Char) :
    ((phase1Loop max_words (pySplitNL t) [] 0).map tokensNL).flatten = tokensNL t := by
  obtain ⟨groups, h1, h2⟩ := phase1Loop_structure max_words (pySplitNL t) [] 0
  rw [h1, List.map_map]
  have hnl : ∀ g ∈ groups, ∀ p ∈ g, nlFree p = true := by
    intro g hg p hp
    apply pySplitNL_pieces_nlFree t
    have hmem : p ∈ groups.flatten := List.mem_flatten.2 ⟨g, hg, hp⟩
    rwa [h2, List.nil_append] at hmem
  have hmaps : groups.map (tokensNL ∘ joinSep ['\\', 'N']) =
      groups.map fun g => (g.map tokensNL).flatten :=
    List.map_congr_left fun g hg => tokensNL_joinNL g (hnl g hg)
  rw [hmaps, flatten_map_flatten, h2, List.nil_append, ← tokensNL_eq_lines]

/-- Rejoining clean marker-free tokens with spaces and re-tokenizing recovers
the tokens. -/
lemma tokensNL_joinSpace (ts : List (List Char))
    (h : ∀ t ∈ ts, (t ≠ [] ∧ ∀ c ∈ t, pySpace c = false) ∧ nlFree t = true) :
    tokensNL (joinSep [' '] ts) = ts := by
  simp only [tokensNL]
  rw [replaceNL_nlFree_id _ (nlFree_joinSpace ts fun t ht => (h t ht).2),
    pySplitWs_joinSpace ts fun t ht => (h t ht).1]

/-- The word-fallback loop emits pieces whose concatenated tokens are exactly
the pending tokens followed by the remaining words. -/
lemma wordSplitLoop_tokens (max_words : ℕ) :
    ∀ (ws temp : List (List Char)),
      (∀ t ∈ ws, (t ≠ [] ∧ ∀ c ∈ t, pySpace c = false) ∧ nlFree t = true) →
      (∀ t ∈ temp, (t ≠ [] ∧ ∀ c ∈ t, pySpace c = false) ∧ nlFree t = true) →
      ((wordSplitLoop max_words ws temp).map tokensNL).flatten = temp ++ ws := by
  intro ws
  induction ws with
  | nil =>
    intro temp hws htemp
    simp only [wordSplitLoop]
    by_cases he : temp.isEmpty = true
    · rw [if_pos he]
      simp [List.isEmpty_iff.1 he]
    · rw [if_neg he]
      simp [tokensNL_joinSpace temp htemp]
  | cons w rest ih =>
    intro temp hws htemp
    have hrest : ∀ t ∈ rest, (t ≠ [] ∧ ∀ c ∈ t, pySpace c = false) ∧ nlFree t = true :=
      fun t ht => hws t (by simp [ht])
    have hw1 : ∀ t ∈ [w], (t ≠ [] ∧ ∀ c ∈ t, pySpace c = false) ∧ nlFree t = true := by
      intro t ht
      rcases List.mem_singleton.1 ht with rfl
      exact hws t (by simp)
    have htw : ∀ t ∈ temp ++ [w],
        (t ≠ [] ∧ ∀ c ∈ t, pySpace c = false) ∧ nlFree t = true := by
      intro t ht
      rcases List.mem_append.1 ht with h1 | h2
      · exact htemp t h1
      · rcases List.mem_singleton.1 h2 with rfl
        exact hws t (by simp)
    simp only [wordSplitLoop]
    split_ifs with hc
    · rw [List.map_cons, List.flatten_cons, tokensNL_joinSpace temp htemp,
        ih [w] hrest hw1]
      simp
    · rw [ih (temp ++ [w]) hrest htw]
      simp

/-- Phase 2 of `split_text_smartly` preserves the concatenated token sequence
of the chunks. -/
lemma phase2_tokens (max_words : ℕ) (chunks : List (List Char)) :
    ((phase2 max_words chunks).map tokensNL).flatten = (chunks.map tokensNL).flatten := by
  induction chunks with
  | nil => rfl
  | cons chunk rest ih =>
    simp only [phase2, List.flatMap_cons] at ih ⊢
    rw [List.map_append, List.flatten_append, ih, List.map_cons, List.flatten_cons]
    congr 1
    by_cases hc : count_words chunk ≤ max_words
    · rw [if_pos hc]
      simp
    · rw [if_neg hc]
      have hclean : ∀ t ∈ pySplitWs (replaceNL chunk),
          (t ≠ [] ∧ ∀ c ∈ t, pySpace c = false) ∧ nlFree t = true := fun t ht =>
        ⟨pySplitWs_clean _ t ht, pySplitWs_nlFree _ (nlFree_replaceNL chunk) t ht⟩
      rw [wordSplitLoop_tokens max_words _ [] hclean (by simp)]
      simp [tokensNL]

/-- The two-phase split preserves the token sequence of the text. -/
lemma split_text_smartly_tokens (t : List Char) (max_words : ℕ) :
    ((split_text_smartly t max_words).map tokensNL).flatten = tokensNL t := by
  unfold split_text_smartly
  rw [phase2_tokens]
  exact phase1Loop_tokens max_words t

/-- The per-cue balancer body preserves the token sequence of the cue's text. -/
lemma balanceOne_tokens (B : SubtitleBalancer) (line : SubtitleEvent)
    (pieces : List SubtitleEvent) (hok : balanceOne B line = .ok pieces) :
    (pieces.map fun p => tokensNL p.text).flatten = tokensNL line.text := by
  by_cases hw : count_words line.text ≤ B.max_words_per_screen
  · obtain rfl : pieces = [line] := by simpa [balanceOne, hw] using hok.symm
    simp
  · by_cases hone : (split_text_smartly line.text B.max_words_per_screen).length = 1
    · obtain rfl : pieces = [line] := by simpa [balanceOne, hw, hone] using hok.symm
      simp
    · simp only [balanceOne] at hok
      rw [if_neg hw, if_neg hone] at hok
      split_ifs at hok with hzero
      rw [Except.ok.injEq] at hok
      have htexts : pieces.map SubtitleEvent.text =
          split_text_smartly line.text B.max_words_per_screen := by
        rw [← hok, timingChunks_texts, List.map_fst_zip]
        simp
      calc (pieces.map fun p => tokensNL p.text).flatten
          = ((pieces.map SubtitleEvent.text).map tokensNL).flatten := by
            rw [List.map_map]
            rfl
        _ = tokensNL line.text := by rw [htexts, split_text_smartly_tokens]

/-- Processing a whole timeline preserves the concatenated token sequence. -/
lemma balance_subtitles_tokens (B : SubtitleBalancer) :
    ∀ (subs out : List SubtitleEvent), balance_subtitles B subs = .ok out →
    (out.map fun p => tokensNL p.text).flatten =
      (subs.map fun e => tokensNL e.text).flatten := by
  intro subs
  induction subs with
  | nil =>
    intro out h
    obtain rfl : out = [] := by simpa [balance_subtitles] using h.symm
    rfl
  | cons e rest ih =>
    intro out h
    simp only [balance_subtitles] at h
    rcases hb : balanceOne B e with err | pieces <;> rw [hb] at h
    · simp at h
    · rcases hr : balance_subtitles B rest with err | tl <;> rw [hr] at h
      · simp at h
      · obtain rfl : pieces ++ tl = out := by simpa using h
        rw [List.map_append, List.flatten_append, ih tl hr, List.map_cons,
          List.flatten_cons, balanceOne_tokens B e pieces hb]

/-- C10: balancing preserves text content. For every cue the balancer splits,
concatenating in output order the token sequences of the pieces' texts (the
pysubs2 line-break marker read as a space, then whitespace-split) yields exactly
the token sequence of the original cue's text, and consequently the whole output
timeline of `balance_subtitles` carries the same concatenated token sequence as
the input timeline: splitting never drops, duplicates, or reorders a token. -/
theorem balance_preserves_tokens (B : SubtitleBalancer) (line : SubtitleEvent)
    (pieces : List SubtitleEvent) (subs out : List SubtitleEvent)
    (h1 : balanceOne B line = .ok pieces)
    (h2 : balance_subtitles B subs = .ok out) :
    (pieces.map fun p => tokensNL p.text).flatten = tokensNL line.text ∧
    (out.map fun p => tokensNL p.text).flatten =
      (subs.map fun e => tokensNL e.text).flatten :=
  ⟨balanceOne_tokens B line pieces h1, balance_subtitles_tokens B subs out h2⟩

/-- C10 witness: the ten-word cue split into two five-word pieces — the two
pieces' tokens concatenate to the original ten tokens, both for the single cue
and for the one-cue timeline run through `balance_subtitles`. -/
theorem balance_preserves_tokens_witness :
    ((([⟨0, 5000, "one two three four five".toList⟩,
        ⟨5000, 10000, "six seven eight nine ten".toList⟩] :
        List SubtitleEvent).map fun p => tokensNL p.text).flatten =
      tokensNL "one two three four five six seven eight nine ten".toList) ∧
    ((([⟨0, 5000, "one two three four five".toList⟩,
        ⟨5000, 10000, "six seven eight nine ten".toList⟩] :
        List SubtitleEvent).map fun p => tokensNL p.text).flatten =
      (([⟨0, 10000,
          "one two three four five six seven eight nine ten".toList⟩] :
        List SubtitleEvent).map fun e => tokensNL e.text).flatten) :=
  balance_preserves_tokens ⟨5, 1000⟩
    ⟨0, 10000, "one two three four five six seven eight nine ten".toList⟩
    [⟨0, 5000, "one two three four five".toList⟩,
     ⟨5000, 10000, "six seven eight nine ten".toList⟩]
    [⟨0, 10000, "one two three four five six seven eight nine ten".toList⟩]
    [⟨0, 5000, "one two three four five".toList⟩,
     ⟨5000, 10000, "six seven eight nine ten".toList⟩]
    balanceOne_ten_words_eval
    (balance_subtitles_singleton _ _ _ balanceOne_ten_words_eval)

/-- C8: the claim says both retry loops re-raise the original failure unchanged
once the attempt budget is exhausted or a non-recoverable failure is hit. The
transport loop (`_generate_subtitles`, `reraise=True`) does: 30 straight server
errors end with the original error, and a daily-quota 429 surfaces unchanged at
once. But the output-validation loop (`_audio_to_subtitles`) sets no `reraise`,
so 50 straight validation failures end in tenacity's `RetryError` wrapping the
last failure — not the original exception — contradicting the claim, the spec's
propagation policy, and the function's own docstring (`Throws:
SubtitleValidationException`). This theorem evaluates both loops there. -/
theorem retry_reraise_behavior :
    audio_to_subtitles_retry (fun _ => .error (.validation (.overlap 1))) =
      .error (.retryError (.validation (.overlap 1))) ∧
    generate_subtitles_retry (fun _ => .error (.serverError 500 [])) =
      .error (.original (.serverError 500 [])) ∧
    generate_subtitles_retry (fun _ => .error (.clientError 429
      [⟨"type.googleapis.com/google.rpc.QuotaFailure",
        [⟨"GenerateRequestsPerDayPerProjectPerModel-FreeTier"⟩], none⟩])) =
      .error (.original (.clientError 429
      [⟨"type.googleapis.com/google.rpc.QuotaFailure",
        [⟨"GenerateRequestsPerDayPerProjectPerModel-FreeTier"⟩], none⟩])) := by
  refine ⟨by decide, by decide, by decide⟩

end SubtitleTool
